import Mathlib

/-!
Verification development for a single-file CSV analysis dashboard (src/app.py).

The program is a reactive script: a UI event triggers a full top-to-bottom run
of `main()`.  We shallowly embed, from the source:

- the CSV loading path (`pd.read_csv` on the uploaded byte stream), restricted
  to the unquoted comma/newline fragment of the CSV grammar with pandas'
  default missing-value markers, integer and decimal numeric literals, blank
  line skipping, short-row padding, the implicit row index when data rows are
  uniformly wider than the header, and rejection of rows wider than the
  expected field count;
- the statistics consulted by the script (`isna().sum().sum()`, the count and
  mean of `describe()`, the Pearson correlation of `corr()`), where the
  pandas floating NaN is modelled by an explicit constructor;
- the chart branch (lines 157-164), where each plotly express call checks
  that the handed names are dataframe columns (ValueError otherwise) but
  never their dtype, and the two axis select boxes (lines 141-147), whose
  option lists restrict what can be chosen;
- `save_user_history` (lines 9-17) over a model of the JSON history file;
- the per-run state transition of `main()` (lines 102-121): the
  `st.session_state` counters, the `st.cache_data` memo slot of `load_data`
  (whose key hashes the function and its arguments only — `load_data` has no
  arguments, so the key is constant), and the history file.

Numeric cells are exact rationals; the int64/float64 distinction of pandas is
collapsed (both print and reparse to the same rational value, which is what
the cell-value claims compare).
-/

namespace Dashboard

/-! ## Character-level splitting, mirroring the record/field structure of the
CSV text.  `splitOnChar` models splitting a text on a separator; `joinWith`
models writing fields/records back with the separator between them. -/

def splitOnChar (sep : Char) : List Char → List (List Char)
  | [] => [[]]
  | c :: t =>
    match splitOnChar sep t with
    | [] => [[c]]
    | h :: r => if c = sep then [] :: h :: r else (c :: h) :: r

def joinWith (sep : Char) : List (List Char) → List Char
  | [] => []
  | [x] => x
  | x :: xs => x ++ sep :: joinWith sep xs

/-! ## Numeric literals.  `parseNum` models the numeric conversion pandas
applies to a CSV field (optional sign, decimal digits, at most one decimal
point); `formatNum` models printing a numeric cell back to CSV text. -/

def digitsToNat (cs : List Char) : Nat :=
  cs.foldl (fun a c => a * 10 + (c.toNat - 48)) 0

def allDigits (cs : List Char) : Bool :=
  cs.all (·.isDigit)

def breakDot : List Char → List Char × Option (List Char)
  | [] => ([], none)
  | c :: t =>
    if c = '.' then ([], some t)
    else
      let r := breakDot t
      (c :: r.1, r.2)

def parseUnsigned (cs : List Char) : Option Rat :=
  match breakDot cs with
  | (a, none) =>
    if allDigits a && !a.isEmpty then some ((digitsToNat a : Nat) : Rat) else none
  | (a, some b) =>
    if allDigits a && allDigits b && !(a.isEmpty && b.isEmpty) then
      some (((digitsToNat (a ++ b) : Nat) : Rat) / (10 : Rat) ^ b.length)
    else none

def parseNum (s : String) : Option Rat :=
  match s.data with
  | [] => none
  | c :: t =>
    if c = '-' then (parseUnsigned t).map (fun q => -q)
    else if c = '+' then parseUnsigned t
    else parseUnsigned (c :: t)

def natToCharsAux : Nat → Nat → List Char
  | 0, _ => []
  | fuel + 1, n =>
    if n = 0 then [] else natToCharsAux fuel (n / 10) ++ [Nat.digitChar (n % 10)]

def natToChars (n : Nat) : List Char :=
  if n = 0 then ['0'] else natToCharsAux n n

def pow10 (d : Nat) : Option Nat :=
  (List.range (d + 1)).find? (fun k => 10 ^ k % d == 0)

def padTo (k : Nat) (ds : List Char) : List Char :=
  List.replicate (k + 1 - ds.length) '0' ++ ds

def decimalChars (m k : Nat) : List Char :=
  (padTo k (natToChars m)).take ((padTo k (natToChars m)).length - k) ++
    '.' :: (padTo k (natToChars m)).drop ((padTo k (natToChars m)).length - k)

def formatUnsigned (n den : Nat) : List Char :=
  if den = 1 then natToChars n
  else
    match pow10 den with
    | none => natToChars n
    | some k => decimalChars (n * 10 ^ k / den) k

def formatNum (q : Rat) : String :=
  ⟨(if q.num < 0 then ['-'] else []) ++ formatUnsigned q.num.natAbs q.den⟩

/-! ## Lemmas about splitting and joining -/

theorem splitOnChar_ne_nil (sep : Char) (cs : List Char) : splitOnChar sep cs ≠ [] := by
  induction cs with
  | nil => simp [splitOnChar]
  | cons c t ih =>
    simp only [splitOnChar]
    cases h : splitOnChar sep t with
    | nil => simp
    | cons hd r => by_cases hc : c = sep <;> simp [hc]

theorem not_mem_of_mem_splitOnChar {sep : Char} {cs p : List Char}
    (hp : p ∈ splitOnChar sep cs) : sep ∉ p := by
  induction cs generalizing p with
  | nil =>
    simp only [splitOnChar, List.mem_singleton] at hp
    subst hp; simp
  | cons c t ih =>
    simp only [splitOnChar] at hp
    cases h : splitOnChar sep t with
    | nil => exact absurd h (splitOnChar_ne_nil sep t)
    | cons hd r =>
      rw [h] at hp
      dsimp only at hp
      by_cases hc : c = sep
      · rw [if_pos hc] at hp
        rcases List.mem_cons.mp hp with h1 | h2
        · subst h1; simp
        · exact ih (h ▸ h2)
      · rw [if_neg hc] at hp
        rcases List.mem_cons.mp hp with h1 | h2
        · subst h1
          intro hmem
          rcases List.mem_cons.mp hmem with h3 | h4
          · exact hc h3.symm
          · exact ih (h ▸ List.mem_cons_self hd r) h4
        · exact ih (h ▸ List.mem_cons_of_mem hd h2)

theorem splitOnChar_of_not_mem {sep : Char} {cs : List Char} (h : sep ∉ cs) :
    splitOnChar sep cs = [cs] := by
  induction cs with
  | nil => rfl
  | cons c t ih =>
    simp only [List.mem_cons, not_or] at h
    have hc : ¬ c = sep := fun hh => h.1 hh.symm
    simp [splitOnChar, ih h.2, hc]

theorem splitOnChar_append {sep : Char} {p rest : List Char} (hp : sep ∉ p) :
    splitOnChar sep (p ++ sep :: rest) = p :: splitOnChar sep rest := by
  induction p with
  | nil =>
    simp only [List.nil_append, splitOnChar]
    cases h : splitOnChar sep rest with
    | nil => exact absurd h (splitOnChar_ne_nil sep rest)
    | cons hd r => simp
  | cons c t ih =>
    simp only [List.mem_cons, not_or] at hp
    have hc : ¬ c = sep := fun hh => hp.1 hh.symm
    simp [splitOnChar, ih hp.2, hc]

theorem splitOnChar_joinWith {sep : Char} {xss : List (List Char)} (h0 : xss ≠ [])
    (h : ∀ x ∈ xss, sep ∉ x) : splitOnChar sep (joinWith sep xss) = xss := by
  induction xss with
  | nil => exact absurd rfl h0
  | cons x xs ih =>
    cases xs with
    | nil => exact splitOnChar_of_not_mem (h x (by simp))
    | cons y ys =>
      have hj : joinWith sep (x :: y :: ys) = x ++ sep :: joinWith sep (y :: ys) := rfl
      rw [hj, splitOnChar_append (h x (by simp)),
        ih (by simp) (fun z hz => h z (List.mem_cons_of_mem x hz))]

/-! ## Lemmas about decimal digit strings -/

theorem digitsToNat_go (b : List Char) (a : Nat) :
    b.foldl (fun a c => a * 10 + (c.toNat - 48)) a = a * 10 ^ b.length + digitsToNat b := by
  induction b generalizing a with
  | nil => simp [digitsToNat]
  | cons c t ih =>
    simp only [List.foldl_cons, digitsToNat, List.length_cons]
    rw [ih (a * 10 + (c.toNat - 48)), ih (0 * 10 + (c.toNat - 48))]
    ring

theorem digitsToNat_append (a b : List Char) :
    digitsToNat (a ++ b) = digitsToNat a * 10 ^ b.length + digitsToNat b := by
  simp only [digitsToNat, List.foldl_append]
  exact digitsToNat_go b _

theorem digitsToNat_replicate_zero (z : Nat) (l : List Char) :
    digitsToNat (List.replicate z '0' ++ l) = digitsToNat l := by
  induction z with
  | zero => simp
  | succ n ih =>
    have hz : (0 : Nat) * 10 + ('0'.toNat - 48) = 0 := rfl
    have h0 : digitsToNat (List.replicate (n + 1) '0' ++ l)
        = digitsToNat (List.replicate n '0' ++ l) := by
      simp only [List.replicate_succ, List.cons_append, digitsToNat, List.foldl_cons, hz]
    rw [h0, ih]

theorem digitChar_toNat {d : Nat} (h : d < 10) : (Nat.digitChar d).toNat - 48 = d := by
  interval_cases d <;> rfl

theorem digitChar_isDigit {d : Nat} (h : d < 10) : (Nat.digitChar d).isDigit = true := by
  interval_cases d <;> rfl

theorem digitsToNat_natToCharsAux : ∀ (fuel n : Nat), n ≤ fuel →
    digitsToNat (natToCharsAux fuel n) = n := by
  intro fuel
  induction fuel with
  | zero =>
    intro n hn
    interval_cases n
    rfl
  | succ f ih =>
    intro n hn
    simp only [natToCharsAux]
    by_cases h0 : n = 0
    · rw [if_pos h0, h0]
      rfl
    · rw [if_neg h0, digitsToNat_append]
      have hdiv : n / 10 ≤ f := by
        have := Nat.div_lt_self (Nat.pos_of_ne_zero h0) (by norm_num : 1 < 10)
        omega
      rw [ih (n / 10) hdiv]
      have hm : n % 10 < 10 := Nat.mod_lt n (by norm_num)
      have hsingle : digitsToNat [Nat.digitChar (n % 10)] = n % 10 := by
        simp only [digitsToNat, List.foldl_cons, List.foldl_nil]
        rw [Nat.zero_mul, Nat.zero_add, digitChar_toNat hm]
      rw [hsingle, List.length_singleton, pow_one]
      omega

theorem allDigits_append {a b : List Char} (ha : allDigits a = true)
    (hb : allDigits b = true) : allDigits (a ++ b) = true := by
  rw [allDigits, List.all_eq_true]
  intro c hc
  rcases List.mem_append.mp hc with h1 | h2
  · exact List.all_eq_true.mp ha c h1
  · exact List.all_eq_true.mp hb c h2

theorem allDigits_natToCharsAux : ∀ (fuel n : Nat),
    allDigits (natToCharsAux fuel n) = true := by
  intro fuel
  induction fuel with
  | zero => intro n; rfl
  | succ f ih =>
    intro n
    simp only [natToCharsAux]
    by_cases h0 : n = 0
    · rw [if_pos h0]
      rfl
    · rw [if_neg h0]
      refine allDigits_append (ih (n / 10)) ?_
      have hm : n % 10 < 10 := Nat.mod_lt n (by norm_num)
      rw [allDigits, List.all_eq_true]
      intro c hc
      rw [List.mem_singleton] at hc
      rw [hc]
      exact digitChar_isDigit hm

theorem natToCharsAux_ne_nil {fuel n : Nat} (h0 : 0 < n) (hle : n ≤ fuel) :
    natToCharsAux fuel n ≠ [] := by
  rcases fuel with _ | f
  · omega
  · simp only [natToCharsAux]
    rw [if_neg (by omega)]
    simp

theorem digitsToNat_natToChars (n : Nat) : digitsToNat (natToChars n) = n := by
  unfold natToChars
  by_cases h : n = 0
  · rw [if_pos h, h]
    rfl
  · rw [if_neg h]
    exact digitsToNat_natToCharsAux n n (Nat.le_refl n)

theorem natToChars_ne_nil (n : Nat) : natToChars n ≠ [] := by
  unfold natToChars
  by_cases h : n = 0
  · rw [if_pos h]
    simp
  · rw [if_neg h]
    exact natToCharsAux_ne_nil (Nat.pos_of_ne_zero h) (Nat.le_refl n)

theorem allDigits_natToChars (n : Nat) : allDigits (natToChars n) = true := by
  unfold natToChars
  by_cases h : n = 0
  · rw [if_pos h]
    rfl
  · rw [if_neg h]
    exact allDigits_natToCharsAux n n

theorem not_dot_of_allDigits {cs : List Char} (h : allDigits cs = true) : '.' ∉ cs := by
  intro hmem
  have := List.all_eq_true.mp h '.' hmem
  simp at this

theorem breakDot_of_not_mem {cs : List Char} (h : '.' ∉ cs) : breakDot cs = (cs, none) := by
  induction cs with
  | nil => rfl
  | cons c t ih =>
    simp only [List.mem_cons, not_or] at h
    have hc : ¬ c = '.' := fun hh => h.1 hh.symm
    simp [breakDot, hc, ih h.2]

theorem breakDot_append {a b : List Char} (h : '.' ∉ a) :
    breakDot (a ++ '.' :: b) = (a, some b) := by
  induction a with
  | nil => simp [breakDot]
  | cons c t ih =>
    simp only [List.mem_cons, not_or] at h
    have hc : ¬ c = '.' := fun hh => h.1 hh.symm
    simp [breakDot, hc, ih h.2]

/-! ## The search for a power of ten cleared by the denominator -/

theorem pow10_spec {den : Nat} (hden : den ≠ 0) (h : ∃ j, den ∣ 10 ^ j) :
    ∃ k, pow10 den = some k ∧ den ∣ 10 ^ k := by
  obtain ⟨j, hj⟩ := h
  have h10 : (10 : Nat) ^ j = 2 ^ j * 5 ^ j := by
    rw [← Nat.mul_pow]
  rw [h10] at hj
  obtain ⟨d1, d2, hd1, hd2, hprod⟩ := exists_dvd_and_dvd_of_dvd_mul hj
  obtain ⟨a, _, rfl⟩ := (Nat.dvd_prime_pow Nat.prime_two).mp hd1
  obtain ⟨b, _, rfl⟩ := (Nat.dvd_prime_pow (by norm_num : Nat.Prime 5)).mp hd2
  have hdvdk : den ∣ 10 ^ max a b := by
    rw [hprod]
    have h10k : (10 : Nat) ^ max a b = 2 ^ max a b * 5 ^ max a b := by
      rw [← Nat.mul_pow]
    rw [h10k]
    exact Nat.mul_dvd_mul (pow_dvd_pow 2 (le_max_left a b)) (pow_dvd_pow 5 (le_max_right a b))
  have hpos : 0 < den := Nat.pos_of_ne_zero hden
  have h2a : 2 ^ a ≤ den := Nat.le_of_dvd hpos ⟨5 ^ b, hprod⟩
  have h5b : 5 ^ b ≤ den := Nat.le_of_dvd hpos ⟨2 ^ a, by rw [hprod]; ring⟩
  have ha2 : a < 2 ^ a := Nat.lt_two_pow a
  have hb5 : b < 5 ^ b := Nat.lt_pow_self (by norm_num) b
  have hkle : max a b ≤ den := by omega
  have hmem : max a b ∈ List.range (den + 1) := List.mem_range.mpr (Nat.lt_succ_of_le hkle)
  have hpk : (10 ^ max a b % den == 0) = true := by
    simp only [beq_iff_eq]
    obtain ⟨c, hc⟩ := hdvdk
    rw [hc]
    exact Nat.mul_mod_right den c
  have hsome : (pow10 den).isSome = true := by
    unfold pow10
    rcases hfind : (List.range (den + 1)).find? (fun k => 10 ^ k % den == 0) with _ | k0
    · exact absurd (List.find?_eq_none.mp hfind (max a b) hmem) (by simp [hpk])
    · rfl
  obtain ⟨k0, hk0⟩ := Option.isSome_iff_exists.mp hsome
  refine ⟨k0, hk0, ?_⟩
  have hp := List.find?_some hk0
  simp only [beq_iff_eq] at hp
  exact Nat.dvd_of_mod_eq_zero hp

/-! ## Reparsing a printed numeric cell recovers its value -/

theorem allDigits_take_of_allDigits {cs : List Char} (t : Nat) (h : allDigits cs = true) :
    allDigits (cs.take t) = true := by
  rw [allDigits, List.all_eq_true]
  exact fun c hc => List.all_eq_true.mp h c (List.take_subset t cs hc)

theorem allDigits_drop_of_allDigits {cs : List Char} (t : Nat) (h : allDigits cs = true) :
    allDigits (cs.drop t) = true := by
  rw [allDigits, List.all_eq_true]
  exact fun c hc => List.all_eq_true.mp h c (List.drop_subset t cs hc)

theorem isEmpty_false_of_ne_nil {cs : List Char} (h : cs ≠ []) : cs.isEmpty = false := by
  rcases cs with _ | ⟨c, t⟩
  · exact absurd rfl h
  · rfl

theorem parseUnsigned_intChars {a : List Char} (ha : allDigits a = true) (hne : a ≠ []) :
    parseUnsigned a = some ((digitsToNat a : Nat) : Rat) := by
  unfold parseUnsigned
  rw [breakDot_of_not_mem (not_dot_of_allDigits ha)]
  dsimp only
  rw [if_pos (by rw [ha, isEmpty_false_of_ne_nil hne]; rfl)]

theorem parseUnsigned_pair {a b : List Char} (ha : allDigits a = true)
    (hb : allDigits b = true) (hne : a ≠ []) :
    parseUnsigned (a ++ '.' :: b) =
      some (((digitsToNat (a ++ b) : Nat) : Rat) / (10 : Rat) ^ b.length) := by
  unfold parseUnsigned
  rw [breakDot_append (not_dot_of_allDigits ha)]
  dsimp only
  rw [if_pos (by rw [ha, hb, isEmpty_false_of_ne_nil hne]; rfl)]

theorem allDigits_padTo (k : Nat) {ds : List Char} (h : allDigits ds = true) :
    allDigits (padTo k ds) = true := by
  refine allDigits_append ?_ h
  rw [allDigits, List.all_eq_true]
  intro c hc
  rw [List.eq_of_mem_replicate hc]
  rfl

theorem length_padTo (k : Nat) (ds : List Char) : k + 1 ≤ (padTo k ds).length := by
  rw [padTo, List.length_append, List.length_replicate]
  omega

theorem digitsToNat_padTo (k : Nat) (ds : List Char) :
    digitsToNat (padTo k ds) = digitsToNat ds :=
  digitsToNat_replicate_zero _ _

theorem parseUnsigned_decimalChars (m k : Nat) :
    parseUnsigned (decimalChars m k) = some (((m : Nat) : Rat) / (10 : Rat) ^ k) := by
  unfold decimalChars
  have hpdig : allDigits (padTo k (natToChars m)) = true :=
    allDigits_padTo k (allDigits_natToChars m)
  have hplen : k + 1 ≤ (padTo k (natToChars m)).length := length_padTo k (natToChars m)
  have hdtake : allDigits ((padTo k (natToChars m)).take
      ((padTo k (natToChars m)).length - k)) = true :=
    allDigits_take_of_allDigits _ hpdig
  have hddrop : allDigits ((padTo k (natToChars m)).drop
      ((padTo k (natToChars m)).length - k)) = true :=
    allDigits_drop_of_allDigits _ hpdig
  have htne : (padTo k (natToChars m)).take ((padTo k (natToChars m)).length - k) ≠ [] := by
    intro hcon
    have := congrArg List.length hcon
    rw [List.length_take] at this
    simp at this
    omega
  rw [parseUnsigned_pair hdtake hddrop htne, List.take_append_drop]
  have hdroplen : ((padTo k (natToChars m)).drop
      ((padTo k (natToChars m)).length - k)).length = k := by
    rw [List.length_drop]
    omega
  rw [hdroplen, digitsToNat_padTo, digitsToNat_natToChars]

theorem parseUnsigned_formatUnsigned (n den : Nat) (hden : den ≠ 0)
    (h : ∃ j, den ∣ 10 ^ j) :
    parseUnsigned (formatUnsigned n den) = some ((n : Rat) / (den : Rat)) := by
  by_cases h1 : den = 1
  · subst h1
    unfold formatUnsigned
    rw [if_pos rfl,
      parseUnsigned_intChars (allDigits_natToChars n) (natToChars_ne_nil n),
      digitsToNat_natToChars]
    norm_num
  · obtain ⟨k, hpk, hdvd⟩ := pow10_spec hden h
    unfold formatUnsigned
    rw [if_neg h1, hpk, parseUnsigned_decimalChars]
    congr 1
    have hdvdn : den ∣ n * 10 ^ k := Dvd.dvd.mul_left hdvd n
    have hmden : n * 10 ^ k / den * den = n * 10 ^ k := Nat.div_mul_cancel hdvdn
    have hden0 : (den : Rat) ≠ 0 := Nat.cast_ne_zero.mpr hden
    have hpow0 : ((10 : Rat) ^ k) ≠ 0 := pow_ne_zero k (by norm_num)
    rw [div_eq_div_iff hpow0 hden0]
    have hcast : ((n * 10 ^ k / den * den : Nat) : Rat) = ((n * 10 ^ k : Nat) : Rat) := by
      rw [hmden]
    push_cast at hcast
    linarith [hcast]

theorem head_digit_of_allDigits {l : List Char} (hne : l ≠ []) (hd : allDigits l = true) :
    ∃ c cs, l = c :: cs ∧ c.isDigit = true := by
  rcases l with _ | ⟨c, cs⟩
  · exact absurd rfl hne
  · exact ⟨c, cs, rfl, List.all_eq_true.mp hd c (List.mem_cons_self c cs)⟩

theorem decimalChars_shape (m k : Nat) :
    ∃ c cs, decimalChars m k = c :: cs ∧ c.isDigit = true := by
  unfold decimalChars
  have hpdig : allDigits (padTo k (natToChars m)) = true :=
    allDigits_padTo k (allDigits_natToChars m)
  have hplen : k + 1 ≤ (padTo k (natToChars m)).length := length_padTo k (natToChars m)
  rcases hh : (padTo k (natToChars m)).take ((padTo k (natToChars m)).length - k)
    with _ | ⟨c, cs⟩
  · have := congrArg List.length hh
    rw [List.length_take] at this
    simp at this
    omega
  · refine ⟨c, cs ++ '.' :: (padTo k (natToChars m)).drop
      ((padTo k (natToChars m)).length - k), by simp, ?_⟩
    have hc : c ∈ (padTo k (natToChars m)).take ((padTo k (natToChars m)).length - k) := by
      rw [hh]
      exact List.mem_cons_self c cs
    exact List.all_eq_true.mp (allDigits_take_of_allDigits _ hpdig) c hc

theorem formatUnsigned_shape (n den : Nat) :
    ∃ c cs, formatUnsigned n den = c :: cs ∧ c.isDigit = true := by
  unfold formatUnsigned
  by_cases h1 : den = 1
  · rw [if_pos h1]
    exact head_digit_of_allDigits (natToChars_ne_nil n) (allDigits_natToChars n)
  · rw [if_neg h1]
    rcases hpk : pow10 den with _ | k
    · exact head_digit_of_allDigits (natToChars_ne_nil n) (allDigits_natToChars n)
    · exact decimalChars_shape _ k

theorem parseNum_formatNum (q : Rat) (h : ∃ j, q.den ∣ 10 ^ j) :
    parseNum (formatNum q) = some q := by
  have hden : q.den ≠ 0 := q.den_nz
  have hu := parseUnsigned_formatUnsigned q.num.natAbs q.den hden h
  obtain ⟨c, cs, hshape, hdig⟩ := formatUnsigned_shape q.num.natAbs q.den
  unfold formatNum parseNum
  by_cases hneg : q.num < 0
  · rw [if_pos hneg]
    have hdata : (⟨['-'] ++ formatUnsigned q.num.natAbs q.den⟩ : String).data
        = '-' :: formatUnsigned q.num.natAbs q.den := by
      rw [List.singleton_append]
    rw [hdata]
    dsimp only
    rw [if_pos rfl, hu]
    have habs : ((q.num.natAbs : Nat) : Rat) = -(q.num : Rat) := by
      rw [Int.cast_natAbs, Int.cast_abs]
      exact abs_of_neg (by exact_mod_cast hneg)
    rw [habs, Option.map_some']
    rw [neg_div, neg_neg, Rat.num_div_den]
  · rw [if_neg hneg]
    have hdata : (⟨[] ++ formatUnsigned q.num.natAbs q.den⟩ : String).data
        = c :: cs := by
      rw [List.nil_append, hshape]
    rw [hdata]
    dsimp only
    have hc1 : ¬ c = '-' := by
      intro hcc
      rw [hcc] at hdig
      exact absurd hdig (by decide)
    have hc2 : ¬ c = '+' := by
      intro hcc
      rw [hcc] at hdig
      exact absurd hdig (by decide)
    rw [if_neg hc1, if_neg hc2, ← hshape, hu]
    have habs : ((q.num.natAbs : Nat) : Rat) = (q.num : Rat) := by
      rw [Int.cast_natAbs, Int.cast_abs]
      exact abs_of_nonneg (by exact_mod_cast not_lt.mp hneg)
    rw [habs, Rat.num_div_den]

theorem parseUnsigned_den_dvd {cs : List Char} {r : Rat}
    (h : parseUnsigned cs = some r) : ∃ k, r.den ∣ 10 ^ k := by
  unfold parseUnsigned at h
  rcases hbd : breakDot cs with ⟨a, b⟩
  rw [hbd] at h
  cases b with
  | none =>
    dsimp only at h
    by_cases hcond : (allDigits a && !a.isEmpty) = true
    · rw [if_pos hcond] at h
      have hr := Option.some.inj h
      refine ⟨0, ?_⟩
      rw [← hr, pow_zero]
      have : ((digitsToNat a : Nat) : Rat).den = 1 := Rat.den_natCast _
      rw [this]
    · rw [if_neg hcond] at h
      exact absurd h (by simp)
  | some b =>
    dsimp only at h
    by_cases hcond : (allDigits a && allDigits b && !(a.isEmpty && b.isEmpty)) = true
    · rw [if_pos hcond] at h
      have hr := Option.some.inj h
      refine ⟨b.length, ?_⟩
      rw [← hr]
      have hdiv : ((digitsToNat (a ++ b) : Nat) : Rat) / (10 : Rat) ^ b.length
          = Rat.divInt (digitsToNat (a ++ b) : Nat) ((10 : Int) ^ b.length) := by
        rw [Rat.divInt_eq_div]
        push_cast
        rfl
      rw [hdiv]
      have hd := Rat.den_dvd ((digitsToNat (a ++ b) : Nat) : Int) ((10 : Int) ^ b.length)
      have : ((10 : Int) ^ b.length) = (((10 : Nat) ^ b.length : Nat) : Int) := by
        push_cast
        rfl
      rw [this] at hd
      exact_mod_cast hd
    · rw [if_neg hcond] at h
      exact absurd h (by simp)

theorem parseNum_den_dvd {s : String} {r : Rat} (h : parseNum s = some r) :
    ∃ k, r.den ∣ 10 ^ k := by
  unfold parseNum at h
  rcases hd : s.data with _ | ⟨c, t⟩ <;> rw [hd] at h
  · exact absurd h (by simp)
  · dsimp only at h
    by_cases h1 : c = '-'
    · rw [if_pos h1] at h
      rcases hpu : parseUnsigned t with _ | r0 <;> rw [hpu] at h
      · exact absurd h (by simp)
      · rw [Option.map_some'] at h
        have hr := Option.some.inj h
        obtain ⟨k, hk⟩ := parseUnsigned_den_dvd hpu
        refine ⟨k, ?_⟩
        rw [← hr, Rat.neg_den]
        exact hk
    · rw [if_neg h1] at h
      by_cases h2 : c = '+'
      · rw [if_pos h2] at h
        exact parseUnsigned_den_dvd h
      · rw [if_neg h2] at h
        exact parseUnsigned_den_dvd h

theorem mem_formatUnsigned {n den : Nat} {c : Char} (h : c ∈ formatUnsigned n den) :
    c.isDigit = true ∨ c = '.' := by
  have hnat : ∀ m : Nat, c ∈ natToChars m → c.isDigit = true := fun m hm =>
    List.all_eq_true.mp (allDigits_natToChars m) c hm
  unfold formatUnsigned at h
  by_cases h1 : den = 1
  · rw [if_pos h1] at h
    exact Or.inl (hnat n h)
  · rw [if_neg h1] at h
    rcases hpk : pow10 den with _ | k <;> rw [hpk] at h
    · exact Or.inl (hnat n h)
    · unfold decimalChars at h
      have hpdig : allDigits (padTo k (natToChars (n * 10 ^ k / den))) = true :=
        allDigits_padTo k (allDigits_natToChars _)
      rcases List.mem_append.mp h with h2 | h2
      · exact Or.inl (List.all_eq_true.mp (allDigits_take_of_allDigits _ hpdig) c h2)
      · rcases List.mem_cons.mp h2 with h3 | h3
        · exact Or.inr h3
        · exact Or.inl (List.all_eq_true.mp (allDigits_drop_of_allDigits _ hpdig) c h3)

theorem mem_formatNum {q : Rat} {c : Char} (h : c ∈ (formatNum q).data) :
    c.isDigit = true ∨ c = '.' ∨ c = '-' := by
  unfold formatNum at h
  by_cases hneg : q.num < 0
  · rw [if_pos hneg] at h
    rcases List.mem_append.mp h with h1 | h1
    · exact Or.inr (Or.inr (List.mem_singleton.mp h1))
    · rcases mem_formatUnsigned h1 with h2 | h2
      · exact Or.inl h2
      · exact Or.inr (Or.inl h2)
  · rw [if_neg hneg, List.nil_append] at h
    rcases mem_formatUnsigned h with h2 | h2
    · exact Or.inl h2
    · exact Or.inr (Or.inl h2)

theorem formatNum_data_ne_nil (q : Rat) : (formatNum q).data ≠ [] := by
  obtain ⟨c, cs, hshape, _⟩ := formatUnsigned_shape q.num.natAbs q.den
  unfold formatNum
  by_cases hneg : q.num < 0 <;> simp [hneg, hshape]

theorem comma_not_mem_formatNum (q : Rat) : ',' ∉ (formatNum q).data := by
  intro h
  rcases mem_formatNum h with h1 | h1 | h1 <;> exact absurd h1 (by decide)

theorem newline_not_mem_formatNum (q : Rat) : '\n' ∉ (formatNum q).data := by
  intro h
  rcases mem_formatNum h with h1 | h1 | h1 <;> exact absurd h1 (by decide)

/-! ## The tabular data model.  A loaded dataframe has either a numeric
column (pandas float64/int64: every non-missing field parses as a number) or
an object column (the raw field strings).  `naValues` is a representative
subset of pandas' default missing-value markers. -/

def naValues : List String := ["", "NA", "NaN", "nan", "null", "N/A"]

def isNA (s : String) : Bool := naValues.contains s

inductive Value where
  | num (q : Rat)
  | str (s : String)
deriving DecidableEq, Repr

inductive ColData where
  | numeric (cells : List (Option Rat))
  | object (cells : List (Option String))
deriving DecidableEq, Repr

structure Column where
  name : String
  data : ColData
deriving DecidableEq, Repr

structure Dataset where
  nrows : Nat
  cols : List Column
deriving DecidableEq, Repr

/-- Column construction with pandas type inference: a column whose
non-missing fields all parse numerically becomes numeric, otherwise the
non-missing fields are kept as strings. -/
def buildCol (nm : String) (fields : List String) : Column :=
  if fields.all (fun s => isNA s || (parseNum s).isSome) then
    ⟨nm, ColData.numeric (fields.map (fun s => if isNA s then none else parseNum s))⟩
  else
    ⟨nm, ColData.object (fields.map (fun s => if isNA s then none else some s))⟩

/-- Assembles the dataframe from header names and split rows; column j is
built from field j of every row, short rows being padded with empty
(missing) fields, as pandas does. -/
def load_table (names : List String) (rows : List (List String)) : Dataset :=
  ⟨rows.length, (List.range names.length).map
    (fun j => buildCol (names.getD j "") (rows.map (fun r => r.getD j "")))⟩

def splitFields (s : String) : List String :=
  (splitOnChar ',' s.data).map (fun cs => ⟨cs⟩)

/-- Lines of the upload; pandas skips fully blank lines. -/
def csvLines (content : String) : List String :=
  ((splitOnChar '\n' content.data).map (fun cs => (⟨cs⟩ : String))).filter (fun l => !(l == ""))

/-- The field count the tokenizer expects of every data row: the larger of
the header's field count and the first data row's (pandas sets
`expected_fields = max(field_count, passed_count)` after reading the
header). -/
def expectedWidth (names : List String) (rows : List (List String)) : Nat :=
  match rows with
  | [] => names.length
  | r0 :: _ => max names.length r0.length

/-- Normalizes one data row to the dataframe's columns: pad the row to the
expected width with empty (missing) fields, then drop the leading fields
beyond the header's count — those form the implicit row index when data rows
are uniformly wider than the header. -/
def trimRow (ncols w : Nat) (r : List String) : List String :=
  (r ++ List.replicate (w - r.length) "").drop (w - ncols)

/-- Model of `pd.read_csv` on the uploaded bytes (`load_data`, line 106):
first non-blank line is the header; a data row with more fields than the
expected width is a tokenizer error (`none`, pandas `ParserError`
"Expected N fields, saw M"); shorter rows are padded with missing fields;
when data rows are wider than the header, the leading extra fields become
the row index (pandas' documented implicit-index behavior) and do not enter
the dataframe's columns; an empty stream is an error (pandas
`EmptyDataError`). -/
def load_csv (content : String) : Option Dataset :=
  match csvLines content with
  | [] => none
  | header :: rawRows =>
    if (rawRows.map splitFields).all
        (fun r => r.length ≤ expectedWidth (splitFields header) (rawRows.map splitFields)) then
      some (load_table (splitFields header)
        ((rawRows.map splitFields).map
          (trimRow (splitFields header).length
            (expectedWidth (splitFields header) (rawRows.map splitFields)))))
    else none

/-! ## Export (`df.to_csv(index=False)`, line 187) -/

def exportField : Option Value → String
  | none => ""
  | some (Value.num q) => formatNum q
  | some (Value.str s) => s

def cellOfCol (c : Column) (j : Nat) : Option Value :=
  match c.data with
  | ColData.numeric cs => (cs.getD j none).map Value.num
  | ColData.object cs => (cs.getD j none).map Value.str

def cellVal (d : Dataset) (i j : Nat) : Option Value :=
  match d.cols.get? i with
  | none => none
  | some c => cellOfCol c j

def exportRow (d : Dataset) (j : Nat) : List String :=
  d.cols.map (fun c => exportField (cellOfCol c j))

def headerFields (d : Dataset) : List String := d.cols.map (·.name)

def to_csv (d : Dataset) : String :=
  ⟨joinWith '\n' ((headerFields d :: (List.range d.nrows).map (exportRow d)).map
    (fun fs => joinWith ',' (fs.map String.data)))⟩

/-! ## Summary statistics consulted by the script -/

def colCells (c : Column) : List (Option Value) :=
  match c.data with
  | ColData.numeric cs => cs.map (fun o => o.map Value.num)
  | ColData.object cs => cs.map (fun o => o.map Value.str)

def colMissing (c : Column) : Nat :=
  match c.data with
  | ColData.numeric cs => cs.countP (·.isNone)
  | ColData.object cs => cs.countP (·.isNone)

/-- Model of `df.isna().sum().sum()` (line 133): per-column missing counts,
then the grand total. -/
def missingValues (d : Dataset) : Nat := (d.cols.map colMissing).sum

/-- The double sum of the cell-is-missing indicator over every column and
row, as the specification words it. -/
def missingIndicatorSum (d : Dataset) : Nat :=
  (d.cols.map (fun c => ((colCells c).map (fun cell => if cell.isNone then 1 else 0)).sum)).sum

/-- A pandas float64 statistic: either NaN or an exact value. -/
inductive PFloat where
  | nan
  | val (q : Rat)
deriving DecidableEq, Repr

def nonMissing (cs : List (Option Rat)) : List Rat := cs.filterMap id

def describeCount (cs : List (Option Rat)) : Nat := (nonMissing cs).length

/-- Model of the `mean` row of `df.describe()`: pandas skips missing values
and yields NaN on an empty column. -/
def describeMean (cs : List (Option Rat)) : PFloat :=
  if (nonMissing cs).length = 0 then PFloat.nan
  else PFloat.val ((nonMissing cs).sum / ((nonMissing cs).length : Rat))

def describeMin (cs : List (Option Rat)) : PFloat :=
  match nonMissing cs with
  | [] => PFloat.nan
  | x :: xs => PFloat.val (xs.foldl min x)

def describeMax (cs : List (Option Rat)) : PFloat :=
  match nonMissing cs with
  | [] => PFloat.nan
  | x :: xs => PFloat.val (xs.foldl max x)

/-- Rows on which both columns are non-missing (pandas `corr` uses pairwise
complete observations). -/
def pairRows (xs ys : List (Option Rat)) : List (Rat × Rat) :=
  (xs.zip ys).filterMap (fun p =>
    match p.1, p.2 with
    | some a, some b => some (a, b)
    | _, _ => none)

def corrN (xs ys : List (Option Rat)) : Nat := (pairRows xs ys).length

def corrMeanX (xs ys : List (Option Rat)) : Rat :=
  ((pairRows xs ys).map Prod.fst).sum / (corrN xs ys : Rat)

def corrMeanY (xs ys : List (Option Rat)) : Rat :=
  ((pairRows xs ys).map Prod.snd).sum / (corrN xs ys : Rat)

def corrSxx (xs ys : List (Option Rat)) : Rat :=
  ((pairRows xs ys).map (fun p => (p.1 - corrMeanX xs ys) ^ 2)).sum

def corrSyy (xs ys : List (Option Rat)) : Rat :=
  ((pairRows xs ys).map (fun p => (p.2 - corrMeanY xs ys) ^ 2)).sum

def corrSxy (xs ys : List (Option Rat)) : Rat :=
  ((pairRows xs ys).map (fun p => (p.1 - corrMeanX xs ys) * (p.2 - corrMeanY xs ys))).sum

/-- The float64 Pearson correlation entry; `defined sxy sxx syy` stands for
the value sxy / sqrt (sxx * syy), kept symbolic because square roots leave
the rationals.  NaN arises exactly when pandas produces NaN: no complete
observation pair, or a zero-variance side (the 0/0 division). -/
inductive CorrValue where
  | nan
  | defined (sxy sxx syy : Rat)
deriving DecidableEq, Repr

/-- Model of one entry of `df[numeric_cols].corr()` (line 178). -/
def corrPair (xs ys : List (Option Rat)) : CorrValue :=
  if corrN xs ys = 0 then CorrValue.nan
  else if corrSxx xs ys = 0 ∨ corrSyy xs ys = 0 then CorrValue.nan
  else CorrValue.defined (corrSxy xs ys) (corrSxx xs ys) (corrSyy xs ys)

/-! ## Column selection (lines 141-147) -/

def isNumericCol (c : Column) : Bool :=
  match c.data with
  | ColData.numeric _ => true
  | ColData.object _ => false

def colNames (d : Dataset) : List String := d.cols.map (·.name)

/-- Model of `df.select_dtypes(include=['float64', 'int64']).columns`
(line 141), the option list of the y-axis select box. -/
def numericColNames (d : Dataset) : List String :=
  (d.cols.filter isNumericCol).map (·.name)

def numericCells (d : Dataset) (nm : String) : Option (List (Option Rat)) :=
  match d.cols.find? (fun c => c.name == nm) with
  | some ⟨_, ColData.numeric cs⟩ => some cs
  | _ => none

/-! ## The chart branch (lines 151-164).  Each `px` call validates that the
handed strings name columns of the dataframe (plotly express raises a
`ValueError` for an absent name); it does not care whether the y column is
numeric or categorical. -/

inductive PyErr where
  | parseError
  | jsonDecodeError
  | attributeError
  | valueError
deriving DecidableEq, Repr

inductive ChartKind where
  | scatter
  | line
  | bar
  | box
deriving DecidableEq, Repr

structure ChartSpec where
  kind : ChartKind
  x : String
  y : String
  title : String
deriving DecidableEq, Repr

def pxScatter (d : Dataset) (x y : String) : Except PyErr ChartSpec :=
  if (colNames d).contains x && (colNames d).contains y then
    Except.ok ⟨ChartKind.scatter, x, y, y ++ " vs " ++ x⟩
  else Except.error PyErr.valueError

def pxLine (d : Dataset) (x y : String) : Except PyErr ChartSpec :=
  if (colNames d).contains x && (colNames d).contains y then
    Except.ok ⟨ChartKind.line, x, y, y ++ " over " ++ x⟩
  else Except.error PyErr.valueError

def pxBar (d : Dataset) (x y : String) : Except PyErr ChartSpec :=
  if (colNames d).contains x && (colNames d).contains y then
    Except.ok ⟨ChartKind.bar, x, y, y ++ " by " ++ x⟩
  else Except.error PyErr.valueError

def pxBox (d : Dataset) (x y : String) : Except PyErr ChartSpec :=
  if (colNames d).contains x && (colNames d).contains y then
    Except.ok ⟨ChartKind.box, x, y, "Distribution of " ++ y ++ " by " ++ x⟩
  else Except.error PyErr.valueError

/-- The if/elif chain on `chart_type` (lines 157-164). -/
def buildFig (d : Dataset) (k : ChartKind) (x y : String) : Except PyErr ChartSpec :=
  match k with
  | ChartKind.scatter => pxScatter d x y
  | ChartKind.line => pxLine d x y
  | ChartKind.bar => pxBar d x y
  | ChartKind.box => pxBox d x y

/-- The documented title per chart kind (spec table). -/
def chartTitle (k : ChartKind) (x y : String) : String :=
  match k with
  | ChartKind.scatter => y ++ " vs " ++ x
  | ChartKind.line => y ++ " over " ++ x
  | ChartKind.bar => y ++ " by " ++ x
  | ChartKind.box => "Distribution of " ++ y ++ " by " ++ x

/-- The chart pipeline as reachable through the UI: `x_axis` is chosen from
`df.columns`, `y_axis` from `numeric_cols` (the select box option lists);
indices model which option the user picked.  With an empty option list the
select box yields `None` and no column-carrying figure arises. -/
def chartSection (d : Dataset) (xi yi : Nat) (k : ChartKind) :
    Option (Except PyErr ChartSpec) :=
  match (colNames d).get? xi, (numericColNames d).get? yi with
  | some x, some y => some (buildFig d k x y)
  | _, _ => none

/-! ## The JSON history file and `save_user_history` (lines 9-17) -/

inductive Json where
  | null
  | bool (b : Bool)
  | num (n : Int)
  | str (s : String)
  | arr (xs : List Json)
  | obj (fields : List (String × Json))

/-- Contents of the history file on disk: either text that parses as JSON
(`valid`), or text that `json.load` rejects (`invalid`). -/
inductive JDoc where
  | valid (j : Json)
  | invalid (raw : String)

/-- Model of `save_user_history` (lines 9-17).  The function reads the whole
file when present (`json.load` raises on malformed text — before the file is
ever opened for writing), appends in memory (`.append` raises on a non-list
JSON value), then rewrites the whole file.  The result is the raised
exception, if any, paired with the file contents after the call; on an
exception the write was never reached, so the contents are the input ones. -/
def save_user_history (file : Option JDoc) (info : Json) : Option PyErr × Option JDoc :=
  match file with
  | none => (none, some (JDoc.valid (Json.arr [info])))
  | some (JDoc.valid (Json.arr xs)) => (none, some (JDoc.valid (Json.arr (xs ++ [info]))))
  | some (JDoc.valid j) => (some PyErr.attributeError, some (JDoc.valid j))
  | some (JDoc.invalid raw) => (some PyErr.jsonDecodeError, some (JDoc.invalid raw))

/-- Deserialization of a history file state into its record sequence; an
absent file reads as the empty sequence (the code starts from `history = []`). -/
def readLog (file : Option JDoc) : Option (List Json) :=
  match file with
  | none => some []
  | some (JDoc.valid (Json.arr xs)) => some xs
  | some _ => none

/-! ## The per-interaction state transition of `main()` (lines 102-121).
Streamlit reruns the whole script on every widget interaction; the uploader
keeps its file across reruns; `st.session_state` persists; `st.cache_data`
persists and its key here is constant (the memoized `load_data` has no
arguments and the closed-over `uploaded_file` is not part of the key). -/

structure UploadedFile where
  name : String
  content : String
deriving DecidableEq, Repr

structure AppState where
  analysis_count : Nat
  last_analysis : Option String
  currentFile : Option UploadedFile
  cacheSlot : Option Dataset
  histFile : Option JDoc
  lastDf : Option Dataset

/-- The `analysis_info` dict (lines 115-120). -/
def uploadRecord (f : UploadedFile) (now : String) (df : Dataset) : Json :=
  Json.obj [("filename", Json.str f.name), ("timestamp", Json.str now),
    ("rows", Json.num (df.nrows : Int)), ("columns", Json.num (df.cols.length : Int))]

/-- Lines 111-121, reached once `df = load_data()` succeeded: increment the
session counter, stamp the time, record `df`, append to the history file. -/
def runLoaded (s : AppState) (f : UploadedFile) (df : Dataset) (now : String) :
    AppState × Option PyErr :=
  ({ s with
      analysis_count := s.analysis_count + 1,
      last_analysis := some now,
      lastDf := some df,
      histFile := (save_user_history s.histFile (uploadRecord f now df)).2 },
    (save_user_history s.histFile (uploadRecord f now df)).1)

/-- One top-to-bottom run of the script body (lines 102-121).  With no file
in the uploader the welcome branch runs and the state is untouched.  With a
file, `load_data()` consults the constant-key cache slot first; only on a
miss does `pd.read_csv` run, and a parse failure aborts the run before any
counter or history update. -/
def runScript (s : AppState) (now : String) : AppState × Option PyErr :=
  match s.currentFile with
  | none => (s, none)
  | some f =>
    match s.cacheSlot with
    | some df => runLoaded s f df now
    | none =>
      match load_csv f.content with
      | none => (s, some PyErr.parseError)
      | some df => runLoaded { s with cacheSlot := some df } f df now

inductive Event where
  | uploadFile (f : UploadedFile)
  | chartOnly
  | exportOnly

/-- A user interaction: it updates the widget state it touches, then reruns
the script.  Chart-kind and export clicks leave the uploader untouched. -/
def step (s : AppState) (e : Event) (now : String) : AppState × Option PyErr :=
  match e with
  | Event.uploadFile f => runScript { s with currentFile := some f } now
  | Event.chartOnly => runScript s now
  | Event.exportOnly => runScript s now

def runEvents (s : AppState) : List (Event × String) → AppState
  | [] => s
  | (e, t) :: rest => runEvents (step s e t).1 rest

/-- Fresh session: zero counters, no timestamp, no file, cold cache, no
history file on disk yet. -/
def initState : AppState := ⟨0, none, none, none, none, none⟩

/-- Number of records the history file holds (0 if absent or unreadable). -/
def histLen (s : AppState) : Nat :=
  match s.histFile with
  | some (JDoc.valid (Json.arr xs)) => xs.length
  | _ => 0

/-! ## Helper lemmas for the summary statistics -/

theorem countP_isNone_eq_indicator {α : Type} (cs : List (Option α)) :
    cs.countP (·.isNone) = (cs.map (fun o => if o.isNone then 1 else 0)).sum := by
  induction cs with
  | nil => rfl
  | cons c t ih =>
    rw [List.countP_cons, List.map_cons, List.sum_cons, ih]
    cases c <;> simp [add_comm]

theorem map_eq_of_forall {α β : Type} (f g : α → β) (l : List α) (h : ∀ a, f a = g a) :
    l.map f = l.map g := by
  induction l with
  | nil => rfl
  | cons x t ih => rw [List.map_cons, List.map_cons, h x, ih]

theorem colMissing_eq_indicator (c : Column) :
    colMissing c = ((colCells c).map (fun cell => if cell.isNone then 1 else 0)).sum := by
  rcases c with ⟨nm, data⟩
  rcases data with cs | cs <;>
  · dsimp only [colMissing, colCells]
    rw [countP_isNone_eq_indicator, List.map_map]
    exact congrArg List.sum (map_eq_of_forall _ _ cs (fun o => by cases o <;> rfl))

theorem mem_fst_pairRows {xs ys : List (Option Rat)} {p : Rat × Rat}
    (hp : p ∈ pairRows xs ys) : p.1 ∈ nonMissing xs := by
  rcases p with ⟨u, v⟩
  rw [pairRows, List.mem_filterMap] at hp
  obtain ⟨q, hq, hfq⟩ := hp
  rcases q with ⟨a, b⟩
  rcases a with _ | a <;> rcases b with _ | b <;> simp at hfq
  obtain ⟨rfl, rfl⟩ := hfq
  have hmem := (List.of_mem_zip hq).1
  dsimp only
  rw [nonMissing, List.mem_filterMap]
  exact ⟨some a, hmem, rfl⟩

theorem describe_empty_nan {cs : List (Option Rat)} (h : nonMissing cs = []) :
    describeCount cs = 0 ∧ describeMean cs = PFloat.nan ∧
    describeMin cs = PFloat.nan ∧ describeMax cs = PFloat.nan := by
  refine ⟨?_, ?_, ?_, ?_⟩ <;>
    simp [describeCount, describeMean, describeMin, describeMax, h]

theorem corrPair_const_left_nan (xs ys : List (Option Rat)) (c : Rat)
    (hc : ∀ v ∈ nonMissing xs, v = c) : corrPair xs ys = CorrValue.nan := by
  by_cases hn : corrN xs ys = 0
  · rw [corrPair, if_pos hn]
  · have hfst : ∀ p ∈ pairRows xs ys, p.1 = c := fun p hp => hc p.1 (mem_fst_pairRows hp)
    have hmap : (pairRows xs ys).map Prod.fst = List.replicate (corrN xs ys) c := by
      rw [List.eq_replicate_iff]
      constructor
      · rw [List.length_map, corrN]
      · intro b hb
        rw [List.mem_map] at hb
        obtain ⟨p, hp, rfl⟩ := hb
        exact hfst p hp
    have hmx : corrMeanX xs ys = c := by
      rw [corrMeanX, hmap, List.sum_replicate, nsmul_eq_mul]
      exact mul_div_cancel_left₀ c (Nat.cast_ne_zero.mpr hn)
    have hsxx : corrSxx xs ys = 0 := by
      rw [corrSxx]
      apply List.sum_eq_zero
      intro x hx
      rw [List.mem_map] at hx
      obtain ⟨p, hp, rfl⟩ := hx
      rw [hfst p hp, hmx, sub_self]
      ring
    rw [corrPair, if_neg hn, if_pos (Or.inl hsxx)]

/-! ## Auxiliary lemmas for the export/reload round trip -/

theorem mem_of_mem_splitOnChar_piece {sep : Char} {cs p : List Char}
    (hp : p ∈ splitOnChar sep cs) : ∀ a ∈ p, a ∈ cs := by
  induction cs generalizing p with
  | nil =>
    simp only [splitOnChar, List.mem_singleton] at hp
    subst hp
    intro a ha
    exact absurd ha (List.not_mem_nil a)
  | cons c t ih =>
    simp only [splitOnChar] at hp
    cases h : splitOnChar sep t with
    | nil => exact absurd h (splitOnChar_ne_nil sep t)
    | cons hd r =>
      rw [h] at hp
      dsimp only at hp
      by_cases hc : c = sep
      · rw [if_pos hc] at hp
        intro a ha
        rcases List.mem_cons.mp hp with h1 | h2
        · subst h1
          exact absurd ha (List.not_mem_nil a)
        · exact List.mem_cons_of_mem c (ih (h ▸ h2) a ha)
      · rw [if_neg hc] at hp
        intro a ha
        rcases List.mem_cons.mp hp with h1 | h2
        · subst h1
          rcases List.mem_cons.mp ha with h3 | h4
          · exact h3 ▸ List.mem_cons_self a t
          · exact List.mem_cons_of_mem c (ih (h ▸ List.mem_cons_self hd r) a h4)
        · exact List.mem_cons_of_mem c (ih (h ▸ List.mem_cons_of_mem hd h2) a ha)

theorem splitOnChar_ne_single_nil {sep : Char} {cs : List Char} (h : cs ≠ []) :
    splitOnChar sep cs ≠ [[]] := by
  rcases cs with _ | ⟨c, t⟩
  · exact absurd rfl h
  · simp only [splitOnChar]
    cases h2 : splitOnChar sep t with
    | nil => exact absurd h2 (splitOnChar_ne_nil sep t)
    | cons hd r =>
      dsimp only
      by_cases hc : c = sep
      · rw [if_pos hc]
        intro hcon
        have := congrArg List.length hcon
        simp at this
      · rw [if_neg hc]
        intro hcon
        have h3 := List.cons.inj hcon
        exact absurd h3.1 (by simp)

theorem mem_joinWith {sep : Char} {xss : List (List Char)} {a : Char}
    (h : a ∈ joinWith sep xss) : a = sep ∨ ∃ x ∈ xss, a ∈ x := by
  induction xss with
  | nil => exact absurd h (List.not_mem_nil a)
  | cons x xs ih =>
    cases xs with
    | nil => exact Or.inr ⟨x, List.mem_cons_self x [], h⟩
    | cons y ys =>
      have hj : joinWith sep (x :: y :: ys) = x ++ sep :: joinWith sep (y :: ys) := rfl
      rw [hj] at h
      rcases List.mem_append.mp h with h1 | h1
      · exact Or.inr ⟨x, List.mem_cons_self x _, h1⟩
      · rcases List.mem_cons.mp h1 with h2 | h2
        · exact Or.inl h2
        · rcases ih h2 with h3 | ⟨z, hz, ha⟩
          · exact Or.inl h3
          · exact Or.inr ⟨z, List.mem_cons_of_mem x hz, ha⟩

theorem joinWith_ne_nil_of_two {sep : Char} {x y : List Char} {ys : List (List Char)} :
    joinWith sep (x :: y :: ys) ≠ [] := by
  have hj : joinWith sep (x :: y :: ys) = x ++ sep :: joinWith sep (y :: ys) := rfl
  rw [hj]
  rcases x with _ | ⟨c, t⟩ <;> simp

theorem range_map_getD {α β : Type} (l : List α) (dflt : α) (g : α → β) :
    (List.range l.length).map (fun r => g (l.getD r dflt)) = l.map g := by
  induction l with
  | nil => rfl
  | cons a t ih =>
    have h1 : List.range (a :: t).length = 0 :: (List.range t.length).map Nat.succ := by
      rw [List.length_cons, List.range_succ_eq_map]
    have h2 : (fun r => g ((a :: t).getD r dflt)) ∘ Nat.succ
        = fun r => g (t.getD r dflt) := rfl
    rw [h1, List.map_cons, List.map_map, h2, ih, List.map_cons]
    rfl

theorem getD_map_of_lt {α β : Type} (f : α → β) :
    ∀ (l : List α) (j : Nat), j < l.length → ∀ (d1 : β) (d2 : α),
      (l.map f).getD j d1 = f (l.getD j d2) := by
  intro l
  induction l with
  | nil =>
    intro j hj
    simp at hj
  | cons a t ih =>
    intro j hj d1 d2
    cases j with
    | zero => rfl
    | succ n =>
      rw [List.map_cons, List.getD_cons_succ, List.getD_cons_succ]
      exact ih n (by simpa using hj) d1 d2

theorem data_pack (cs : List Char) : (⟨cs⟩ : String).data = cs := rfl

theorem pack_data (s : String) : (⟨s.data⟩ : String) = s := rfl

theorem string_ne_empty_of_data {s : String} (h : s.data ≠ []) : s ≠ "" := by
  intro hc
  rw [hc] at h
  exact h rfl

theorem parseNum_isNA_none {s : String} (h : isNA s = true) : parseNum s = none := by
  rw [isNA, naValues] at h
  simp only [List.contains_cons, List.contains_nil, Bool.or_eq_true, beq_iff_eq] at h
  rcases h with h | h | h | h | h | h | h
  all_goals first
    | (subst h; rfl)
    | exact absurd h (by simp)

theorem isNA_false_of_parseNum_some {s : String} {q : Rat} (h : parseNum s = some q) :
    isNA s = false := by
  by_cases hna : isNA s = true
  · rw [parseNum_isNA_none hna] at h
    exact absurd h (by simp)
  · exact Bool.not_eq_true _ ▸ Bool.of_not_eq_true hna

/-! ## Well-formedness of loaded datasets.  Everything below is an invariant
established by `load_csv` and consumed by the export/reload round trip. -/

def WFString (s : String) : Prop := ',' ∉ s.data ∧ '\n' ∉ s.data

def WFCol (n : Nat) (c : Column) : Prop :=
  WFString c.name ∧
  match c.data with
  | ColData.numeric cs => cs.length = n ∧ ∀ q : Rat, some q ∈ cs → ∃ k, q.den ∣ 10 ^ k
  | ColData.object os => os.length = n ∧
      (∀ s : String, some s ∈ os → WFString s ∧ isNA s = false) ∧
      ∃ s : String, some s ∈ os ∧ parseNum s = none

def WFDataset (d : Dataset) : Prop :=
  d.cols ≠ [] ∧ headerFields d ≠ [""] ∧ ∀ c ∈ d.cols, WFCol d.nrows c

theorem getD_mem_of_lt {α : Type} {l : List α} {j : Nat} (h : j < l.length) (dflt : α) :
    l.getD j dflt ∈ l := by
  induction l generalizing j with
  | nil => simp at h
  | cons a t ih =>
    cases j with
    | zero => exact List.mem_cons_self a t
    | succ n =>
      rw [List.getD_cons_succ]
      exact List.mem_cons_of_mem a (ih (by simpa using h))

theorem WFString_empty : WFString "" := ⟨by simp [data_pack], by simp [data_pack]⟩

theorem csvLines_mem {content : String} {l : String} (h : l ∈ csvLines content) :
    l ≠ "" ∧ '\n' ∉ l.data := by
  rw [csvLines] at h
  have h2 := List.of_mem_filter h
  have h1 := List.mem_of_mem_filter h
  rw [List.mem_map] at h1
  obtain ⟨cs, hcs, rfl⟩ := h1
  refine ⟨by simpa using h2, ?_⟩
  rw [data_pack]
  exact not_mem_of_mem_splitOnChar hcs

theorem splitFields_mem {l s : String} (h : s ∈ splitFields l) :
    ',' ∉ s.data ∧ ∀ a ∈ s.data, a ∈ l.data := by
  rw [splitFields, List.mem_map] at h
  obtain ⟨cs, hcs, rfl⟩ := h
  rw [data_pack]
  exact ⟨not_mem_of_mem_splitOnChar hcs, mem_of_mem_splitOnChar_piece hcs⟩

theorem splitFields_ne_nil (l : String) : splitFields l ≠ [] := by
  rw [splitFields]
  intro hcon
  rw [List.map_eq_nil_iff] at hcon
  exact splitOnChar_ne_nil ',' l.data hcon

theorem data_ne_nil_of_ne_empty {l : String} (h : l ≠ "") : l.data ≠ [] := by
  intro hcon
  exact h (by rw [← pack_data l, hcon])

theorem splitFields_ne_single_empty {l : String} (h : l ≠ "") : splitFields l ≠ [""] := by
  rw [splitFields]
  intro hcon
  have hdata := data_ne_nil_of_ne_empty h
  rcases hsp : splitOnChar ',' l.data with _ | ⟨p, ps⟩
  · exact splitOnChar_ne_nil ',' l.data hsp
  · rw [hsp, List.map_cons] at hcon
    have h1 := List.cons.inj hcon
    have hp : p = [] := by
      have := congrArg String.data h1.1
      rw [data_pack] at this
      simpa using this
    have hps : ps = [] := List.map_eq_nil_iff.mp h1.2
    rw [hp, hps] at hsp
    exact splitOnChar_ne_single_nil hdata hsp

theorem buildCol_name (nm : String) (fields : List String) : (buildCol nm fields).name = nm := by
  rw [buildCol]
  split <;> rfl

theorem load_table_nrows (names : List String) (rows : List (List String)) :
    (load_table names rows).nrows = rows.length := rfl

theorem load_table_cols (names : List String) (rows : List (List String)) :
    (load_table names rows).cols = (List.range names.length).map
      (fun j => buildCol (names.getD j "") (rows.map (fun r => r.getD j ""))) := rfl

theorem headerFields_load_table (names : List String) (rows : List (List String)) :
    headerFields (load_table names rows) = names := by
  rw [headerFields, load_table_cols, List.map_map]
  have h1 : ((fun c => c.name) ∘ fun j => buildCol (names.getD j "")
      (rows.map (fun r => r.getD j ""))) = fun j => names.getD j "" := by
    funext j
    exact buildCol_name _ _
  rw [h1]
  have h2 := range_map_getD names "" (fun s => s)
  rw [List.map_id'] at h2
  exact h2

theorem bool_eq_false {b : Bool} (h : ¬ b = true) : b = false := by
  cases b
  · rfl
  · exact absurd rfl h

theorem buildCol_wf (nm : String) (fields : List String) (n : Nat)
    (hnm : WFString nm) (hlen : fields.length = n)
    (hf : ∀ s ∈ fields, WFString s) :
    WFCol n (buildCol nm fields) := by
  constructor
  · rw [buildCol_name]
    exact hnm
  · rw [buildCol]
    by_cases hall : (fields.all (fun s => isNA s || (parseNum s).isSome)) = true
    · rw [if_pos hall]
      dsimp only
      constructor
      · rw [List.length_map]
        exact hlen
      · intro q hq
        rw [List.mem_map] at hq
        obtain ⟨s, hs, hsq⟩ := hq
        by_cases hna : isNA s = true
        · rw [if_pos hna] at hsq
          exact absurd hsq (by simp)
        · rw [if_neg hna] at hsq
          exact parseNum_den_dvd hsq
    · rw [if_neg hall]
      dsimp only
      refine ⟨by rw [List.length_map]; exact hlen, ?_, ?_⟩
      · intro s hs
        rw [List.mem_map] at hs
        obtain ⟨s0, hs0, hss⟩ := hs
        by_cases hna : isNA s0 = true
        · rw [if_pos hna] at hss
          exact absurd hss (by simp)
        · rw [if_neg hna] at hss
          obtain rfl := Option.some.inj hss
          exact ⟨hf s0 hs0, bool_eq_false hna⟩
      · have hex : ∃ s ∈ fields, ¬ (isNA s || (parseNum s).isSome) = true := by
          by_contra hcon
          push_neg at hcon
          exact hall (List.all_eq_true.mpr hcon)
        obtain ⟨s, hs, hfalse⟩ := hex
        simp only [Bool.or_eq_true, not_or] at hfalse
        refine ⟨s, ?_, ?_⟩
        · rw [List.mem_map]
          exact ⟨s, hs, by rw [if_neg hfalse.1]⟩
        · rcases hps : parseNum s with _ | q
          · rfl
          · exact absurd (by rw [hps]; rfl) hfalse.2

theorem load_table_wf (names : List String) (rows : List (List String))
    (hnames_ne : names ≠ [])
    (hnames_nse : names ≠ [""])
    (hname_wf : ∀ s ∈ names, WFString s)
    (hfield_wf : ∀ r ∈ rows, ∀ s ∈ r, WFString s) :
    WFDataset (load_table names rows) := by
  refine ⟨?_, ?_, ?_⟩
  · rw [load_table_cols]
    intro hcon
    rw [List.map_eq_nil_iff, List.range_eq_nil] at hcon
    exact hnames_ne (List.length_eq_zero.mp hcon)
  · rw [headerFields_load_table]
    exact hnames_nse
  · intro c hc
    rw [load_table_cols, List.mem_map] at hc
    obtain ⟨j, hj, rfl⟩ := hc
    rw [List.mem_range] at hj
    rw [load_table_nrows]
    refine buildCol_wf _ _ _ (hname_wf _ (getD_mem_of_lt hj "")) (List.length_map _ _) ?_
    intro s hs
    rw [List.mem_map] at hs
    obtain ⟨r, hr, rfl⟩ := hs
    by_cases hjr : j < r.length
    · exact hfield_wf r hr _ (getD_mem_of_lt hjr "")
    · rw [List.getD_eq_default]
      · exact WFString_empty
      · omega

theorem mem_trimRow {ncols w : Nat} {r : List String} {s : String}
    (h : s ∈ trimRow ncols w r) : s ∈ r ∨ s = "" := by
  rw [trimRow] at h
  have h2 := List.drop_subset _ _ h
  rcases List.mem_append.mp h2 with h3 | h3
  · exact Or.inl h3
  · exact Or.inr (List.eq_of_mem_replicate h3)

theorem trimRow_id {n : Nat} {r : List String} (h : r.length = n) : trimRow n n r = r := by
  simp [trimRow, h]

theorem load_csv_wf {content : String} {d : Dataset} (h : load_csv content = some d) :
    WFDataset d := by
  unfold load_csv at h
  rcases hcl : csvLines content with _ | ⟨header, rawRows⟩ <;> rw [hcl] at h
  · exact absurd h (by simp)
  · dsimp only at h
    by_cases hlen : ((rawRows.map splitFields).all
        (fun r => r.length ≤ expectedWidth (splitFields header) (rawRows.map splitFields)))
          = true
    · rw [if_pos hlen] at h
      obtain rfl := Option.some.inj h
      have hhead := csvLines_mem (hcl ▸ List.mem_cons_self header rawRows)
      apply load_table_wf
      · exact splitFields_ne_nil header
      · exact splitFields_ne_single_empty hhead.1
      · intro s hs
        have h2 := splitFields_mem hs
        exact ⟨h2.1, fun hmem => hhead.2 (h2.2 '\n' hmem)⟩
      · intro r hr s hs
        rw [List.mem_map] at hr
        obtain ⟨r0, hr0, rfl⟩ := hr
        rcases mem_trimRow hs with hs1 | hs1
        · rw [List.mem_map] at hr0
          obtain ⟨l, hl, rfl⟩ := hr0
          have hline := csvLines_mem (hcl ▸ List.mem_cons_of_mem header hl)
          have h2 := splitFields_mem hs1
          exact ⟨h2.1, fun hmem => hline.2 (h2.2 '\n' hmem)⟩
        · rw [hs1]
          exact WFString_empty
    · rw [if_neg hlen] at h
      exact absurd h (by simp)

theorem map_eq_of_forall_mem {α β : Type} (f g : α → β) (l : List α)
    (h : ∀ a ∈ l, f a = g a) : l.map f = l.map g := by
  induction l with
  | nil => rfl
  | cons x t ih =>
    rw [List.map_cons, List.map_cons, h x (List.mem_cons_self x t),
      ih (fun a ha => h a (List.mem_cons_of_mem x ha))]

/-- Reparsing the exported fields of a well-formed column is the identity:
numeric cells print as numerals that parse back to the same rational, object
cells are non-missing-marker strings that reparse as themselves, and the
type inference lands on the same side again. -/
theorem buildCol_export_eq {n : Nat} (c : Column) (h : WFCol n c) :
    buildCol c.name ((List.range n).map (fun r => exportField (cellOfCol c r))) = c := by
  rcases c with ⟨nm, data⟩
  rcases data with cs | os
  · obtain ⟨hnm, hlen, hsmooth⟩ := h
    subst hlen
    have hfields : (List.range cs.length).map
        (fun r => exportField (cellOfCol ⟨nm, ColData.numeric cs⟩ r))
        = cs.map (fun o => exportField (o.map Value.num)) :=
      range_map_getD cs none (fun o => exportField (o.map Value.num))
    rw [hfields, buildCol]
    have hall : ((cs.map (fun o => exportField (o.map Value.num))).all
        (fun s => isNA s || (parseNum s).isSome)) = true := by
      rw [List.all_eq_true]
      intro s hs
      rw [List.mem_map] at hs
      obtain ⟨o, ho, rfl⟩ := hs
      rcases o with _ | q
      · rfl
      · have hp := parseNum_formatNum q (hsmooth q ho)
        show (isNA (formatNum q) || (parseNum (formatNum q)).isSome) = true
        rw [hp]
        simp
    rw [if_pos hall]
    have hcells : (cs.map (fun o => exportField (o.map Value.num))).map
        (fun s => if isNA s then none else parseNum s) = cs := by
      rw [List.map_map]
      have h1 : ∀ o ∈ cs, ((fun s => if isNA s then none else parseNum s) ∘
          (fun o => exportField (o.map Value.num))) o = id o := by
        intro o ho
        rcases o with _ | q
        · rfl
        · have hp := parseNum_formatNum q (hsmooth q ho)
          have hna := isNA_false_of_parseNum_some hp
          show (if isNA (formatNum q) then none else parseNum (formatNum q)) = some q
          rw [hna, hp]
          rfl
      rw [map_eq_of_forall_mem _ _ cs h1, List.map_id]
    rw [hcells]
  · obtain ⟨hnm, hlen, hcellwf, s0, hs0mem, hs0parse⟩ := h
    subst hlen
    have hfields : (List.range os.length).map
        (fun r => exportField (cellOfCol ⟨nm, ColData.object os⟩ r))
        = os.map (fun o => exportField (o.map Value.str)) :=
      range_map_getD os none (fun o => exportField (o.map Value.str))
    rw [hfields, buildCol]
    have hs0na : isNA s0 = false := (hcellwf s0 hs0mem).2
    have hallfalse : ¬ ((os.map (fun o => exportField (o.map Value.str))).all
        (fun s => isNA s || (parseNum s).isSome)) = true := by
      intro hcon
      have hmem : s0 ∈ os.map (fun o => exportField (o.map Value.str)) := by
        rw [List.mem_map]
        exact ⟨some s0, hs0mem, rfl⟩
      have := List.all_eq_true.mp hcon s0 hmem
      rw [hs0na, hs0parse] at this
      simp at this
    rw [if_neg hallfalse]
    have hcells : (os.map (fun o => exportField (o.map Value.str))).map
        (fun s => if isNA s then none else some s) = os := by
      rw [List.map_map]
      have h1 : ∀ o ∈ os, ((fun s => if isNA s then none else some s) ∘
          (fun o => exportField (o.map Value.str))) o = id o := by
        intro o ho
        rcases o with _ | s
        · rfl
        · have hna := (hcellwf s ho).2
          show (if isNA s then none else some s) = some s
          rw [hna]
          rfl
      rw [map_eq_of_forall_mem _ _ os h1, List.map_id]
    rw [hcells]

def emptyCol : Column := ⟨"", ColData.numeric []⟩

theorem exportRow_ne_nil {d : Dataset} (h : d.cols ≠ []) (r : Nat) : exportRow d r ≠ [] := by
  rw [exportRow]
  simpa [List.map_eq_nil_iff] using h

theorem length_exportRow (d : Dataset) (r : Nat) : (exportRow d r).length = d.cols.length :=
  List.length_map _ _

theorem getD_option_some_mem {α : Type} {l : List (Option α)} {j : Nat} {a : α}
    (h : l.getD j none = some a) : some a ∈ l := by
  by_cases hj : j < l.length
  · have hm := getD_mem_of_lt hj (none : Option α)
    rw [h] at hm
    exact hm
  · rw [List.getD_eq_default] at h
    · exact absurd h (by simp)
    · omega

theorem export_cell_wf {d : Dataset} (hwf : WFDataset d) {c : Column} (hc : c ∈ d.cols)
    (r : Nat) : ',' ∉ (exportField (cellOfCol c r)).data ∧
      '\n' ∉ (exportField (cellOfCol c r)).data := by
  have hwfc := hwf.2.2 c hc
  rcases c with ⟨nm, data⟩
  rcases data with cs | os
  · rcases hcell : cs.getD r none with _ | q
    · rw [show cellOfCol ⟨nm, ColData.numeric cs⟩ r = (cs.getD r none).map Value.num from rfl,
        hcell]
      constructor <;> simp [exportField]
    · rw [show cellOfCol ⟨nm, ColData.numeric cs⟩ r = (cs.getD r none).map Value.num from rfl,
        hcell]
      exact ⟨comma_not_mem_formatNum q, newline_not_mem_formatNum q⟩
  · rcases hcell : os.getD r none with _ | s
    · rw [show cellOfCol ⟨nm, ColData.object os⟩ r = (os.getD r none).map Value.str from rfl,
        hcell]
      constructor <;> simp [exportField]
    · rw [show cellOfCol ⟨nm, ColData.object os⟩ r = (os.getD r none).map Value.str from rfl,
        hcell]
      exact (hwfc.2.2.1 s (getD_option_some_mem hcell)).1

theorem cell_str_data_ne_nil {d : Dataset} (hwf : WFDataset d) {c : Column} (hc : c ∈ d.cols)
    {r : Nat} {s : String} (h : cellOfCol c r = some (Value.str s)) : s.data ≠ [] := by
  have hwfc := hwf.2.2 c hc
  rcases c with ⟨nm, data⟩
  rcases data with cs | os
  · exfalso
    rcases hg : cs.getD r none with _ | q <;>
      rw [show cellOfCol ⟨nm, ColData.numeric cs⟩ r = (cs.getD r none).map Value.num from rfl,
        hg] at h <;> simp at h
  · rcases hg : os.getD r none with _ | s0
    · rw [show cellOfCol ⟨nm, ColData.object os⟩ r = (os.getD r none).map Value.str from rfl,
        hg] at h
      exact absurd h (by simp)
    · rw [show cellOfCol ⟨nm, ColData.object os⟩ r = (os.getD r none).map Value.str from rfl,
        hg] at h
      have hss : s0 = s := by simpa using h
      subst hss
      have hna := (hwfc.2.2.1 s0 (getD_option_some_mem hg)).2
      intro hcon
      have hs0 : s0 = "" := by rw [← pack_data s0, hcon]
      rw [hs0] at hna
      exact absurd hna (by decide)

theorem splitFields_joinWith (fs : List String) (hne : fs ≠ [])
    (hcf : ∀ s ∈ fs, ',' ∉ s.data) :
    splitFields ⟨joinWith ',' (fs.map String.data)⟩ = fs := by
  rw [splitFields, data_pack]
  rw [splitOnChar_joinWith (fun hcon => hne (List.map_eq_nil_iff.mp hcon))
    (fun x hx => by
      rw [List.mem_map] at hx
      obtain ⟨s, hs, rfl⟩ := hx
      exact hcf s hs)]
  rw [List.map_map]
  have hfin : List.map ((fun cs => (⟨cs⟩ : String)) ∘ String.data) fs = List.map id fs :=
    map_eq_of_forall_mem _ _ fs (fun s _ => rfl)
  rw [hfin, List.map_id]

/-- Exporting a well-formed dataset and reloading the export reproduces the
dataset exactly, provided no exported row serializes to a blank line (which
`read_csv` would skip): with at least two columns a row line always contains
a comma, and otherwise every row must keep a non-missing cell. -/
theorem load_csv_to_csv (d : Dataset) (hwf : WFDataset d)
    (hguard : 2 ≤ d.cols.length ∨
      ∀ j < d.nrows, ∃ c ∈ d.cols, (cellOfCol c j).isSome = true) :
    load_csv (to_csv d) = some d := by
  have hfields_wf : ∀ fs ∈ (headerFields d :: (List.range d.nrows).map (exportRow d)),
      ∀ s ∈ fs, ',' ∉ s.data ∧ '\n' ∉ s.data := by
    intro fs hfs s hs
    rcases List.mem_cons.mp hfs with h1 | h1
    · subst h1
      rw [headerFields, List.mem_map] at hs
      obtain ⟨c, hc, rfl⟩ := hs
      exact (hwf.2.2 c hc).1
    · rw [List.mem_map] at h1
      obtain ⟨r, _, rfl⟩ := h1
      rw [exportRow, List.mem_map] at hs
      obtain ⟨c, hc, rfl⟩ := hs
      exact export_cell_wf hwf hc r
  have hlines_nl : ∀ x ∈ (headerFields d :: (List.range d.nrows).map (exportRow d)).map
      (fun fs => joinWith ',' (fs.map String.data)), '\n' ∉ x := by
    intro x hx
    rw [List.mem_map] at hx
    obtain ⟨fs, hfs, rfl⟩ := hx
    intro hmem
    rcases mem_joinWith hmem with h1 | ⟨y, hy, hay⟩
    · exact absurd h1 (by decide)
    · rw [List.mem_map] at hy
      obtain ⟨s, hs, rfl⟩ := hy
      exact (hfields_wf fs hfs s hs).2 hay
  have hsplit : splitOnChar '\n' (to_csv d).data
      = (headerFields d :: (List.range d.nrows).map (exportRow d)).map
        (fun fs => joinWith ',' (fs.map String.data)) := by
    rw [to_csv, data_pack]
    exact splitOnChar_joinWith (by simp) hlines_nl
  have hline_ne : ∀ fs ∈ (headerFields d :: (List.range d.nrows).map (exportRow d)),
      joinWith ',' (fs.map String.data) ≠ [] := by
    intro fs hfs
    rcases hcols : d.cols with _ | ⟨c0, rest⟩
    · exact absurd hcols hwf.1
    · rcases rest with _ | ⟨c1, rest2⟩
      · rcases List.mem_cons.mp hfs with h1 | h1
        · subst h1
          have hh : headerFields d = [c0.name] := by
            rw [headerFields, hcols]
            rfl
          rw [hh]
          have hne : c0.name ≠ "" := by
            intro hcon
            exact hwf.2.1 (by rw [hh, hcon])
          simpa [joinWith] using data_ne_nil_of_ne_empty hne
        · rw [List.mem_map] at h1
          obtain ⟨r, hr, rfl⟩ := h1
          rw [List.mem_range] at hr
          have hg : ∃ c ∈ d.cols, (cellOfCol c r).isSome = true := by
            rcases hguard with h2 | h2
            · rw [hcols] at h2
              simp at h2
            · exact h2 r hr
          obtain ⟨c, hcmem, hcs⟩ := hg
          have hrow : exportRow d r = [exportField (cellOfCol c r)] := by
            have hcc : c = c0 := by
              rw [hcols] at hcmem
              simpa using hcmem
            rw [exportRow, hcols, hcc]
            rfl
          rw [hrow]
          rcases hcell : cellOfCol c r with _ | v
          · rw [hcell] at hcs
            simp at hcs
          · rcases v with q | s
            · simpa [joinWith, exportField] using formatNum_data_ne_nil q
            · simpa [joinWith, exportField] using cell_str_data_ne_nil hwf hcmem hcell
      · have hlen2 : fs.length = d.cols.length := by
          rcases List.mem_cons.mp hfs with h1 | h1
          · subst h1
            exact List.length_map _ _
          · rw [List.mem_map] at h1
            obtain ⟨r, _, rfl⟩ := h1
            exact length_exportRow d r
        rw [hcols] at hlen2
        rcases fs with _ | ⟨a, fs1⟩
        · simp at hlen2
        · rcases fs1 with _ | ⟨b, fs2⟩
          · simp at hlen2
          · rw [List.map_cons, List.map_cons]
            exact joinWith_ne_nil_of_two
  have hcsv : csvLines (to_csv d)
      = (headerFields d :: (List.range d.nrows).map (exportRow d)).map
        (fun fs => (⟨joinWith ',' (fs.map String.data)⟩ : String)) := by
    rw [csvLines, hsplit, List.map_map]
    apply List.filter_eq_self.mpr
    intro l hl
    rw [List.mem_map] at hl
    obtain ⟨fs, hfs, rfl⟩ := hl
    have hne := hline_ne fs hfs
    simp only [Function.comp]
    have : (⟨joinWith ',' (fs.map String.data)⟩ : String) ≠ "" :=
      string_ne_empty_of_data (by rw [data_pack]; exact hne)
    simpa using this
  have hsfh : splitFields ⟨joinWith ',' ((headerFields d).map String.data)⟩
      = headerFields d :=
    splitFields_joinWith _
      (fun hcon => hwf.1 (by rwa [headerFields, List.map_eq_nil_iff] at hcon))
      (fun s hs => (hfields_wf _ (List.mem_cons_self _ _) s hs).1)
  have hrowsplit : ∀ r < d.nrows,
      splitFields ⟨joinWith ',' ((exportRow d r).map String.data)⟩ = exportRow d r := by
    intro r hr
    exact splitFields_joinWith _ (exportRow_ne_nil hwf.1 r)
      (fun s hs => (hfields_wf (exportRow d r)
        (List.mem_cons_of_mem _ (List.mem_map_of_mem _ (List.mem_range.mpr hr))) s hs).1)
  unfold load_csv
  rw [hcsv, List.map_cons, List.map_map]
  dsimp only
  have hrows : ((List.range d.nrows).map
      ((fun fs => (⟨joinWith ',' (fs.map String.data)⟩ : String)) ∘ exportRow d)).map
        splitFields = (List.range d.nrows).map (exportRow d) := by
    rw [List.map_map]
    apply map_eq_of_forall_mem
    intro r hr
    rw [List.mem_range] at hr
    exact hrowsplit r hr
  rw [hrows, hsfh]
  have hw : expectedWidth (headerFields d) ((List.range d.nrows).map (exportRow d))
      = (headerFields d).length := by
    rcases hnr : (List.range d.nrows).map (exportRow d) with _ | ⟨r0, rest⟩
    · rfl
    · have hr0 : r0 ∈ (List.range d.nrows).map (exportRow d) := by
        rw [hnr]
        exact List.mem_cons_self _ _
      rw [List.mem_map] at hr0
      obtain ⟨k2, _, rfl⟩ := hr0
      show max (headerFields d).length (exportRow d k2).length = (headerFields d).length
      rw [length_exportRow]
      simp only [headerFields, List.length_map]
      exact Nat.max_self _
  have hcond : (((List.range d.nrows).map (exportRow d)).all
      (fun r => r.length ≤ expectedWidth (headerFields d)
        ((List.range d.nrows).map (exportRow d)))) = true := by
    rw [List.all_eq_true]
    intro fs hfs
    rw [List.mem_map] at hfs
    obtain ⟨r, _, rfl⟩ := hfs
    rw [hw]
    simp [length_exportRow, headerFields]
  rw [if_pos hcond]
  have htrim : (((List.range d.nrows).map (exportRow d)).map
      (trimRow (headerFields d).length
        (expectedWidth (headerFields d) ((List.range d.nrows).map (exportRow d)))))
      = (List.range d.nrows).map (exportRow d) := by
    rw [hw]
    have h4 : ∀ r ∈ (List.range d.nrows).map (exportRow d),
        trimRow (headerFields d).length (headerFields d).length r = id r := by
      intro r hr
      rw [List.mem_map] at hr
      obtain ⟨k2, _, rfl⟩ := hr
      have hlen4 : (exportRow d k2).length = (headerFields d).length := by
        rw [length_exportRow]
        simp [headerFields]
      exact trimRow_id hlen4
    rw [map_eq_of_forall_mem _ _ _ h4, List.map_id]
  rw [htrim]
  congr 1
  have h2 : (load_table (headerFields d)
      ((List.range d.nrows).map (exportRow d))).cols = d.cols := by
    rw [load_table_cols]
    have hlen : (headerFields d).length = d.cols.length := List.length_map _ _
    rw [hlen]
    have hid : (List.range d.cols.length).map (fun j => d.cols.getD j emptyCol) = d.cols := by
      have h3 := range_map_getD d.cols emptyCol (fun c => c)
      rw [List.map_id'] at h3
      exact h3
    refine Eq.trans ?_ hid
    apply map_eq_of_forall_mem
    intro j hj
    rw [List.mem_range] at hj
    have hname : (headerFields d).getD j "" = (d.cols.getD j emptyCol).name := by
      rw [headerFields]
      exact getD_map_of_lt (fun c => c.name) d.cols j hj "" emptyCol
    have hfs : ((List.range d.nrows).map (exportRow d)).map (fun r => r.getD j "")
        = (List.range d.nrows).map
          (fun r => exportField (cellOfCol (d.cols.getD j emptyCol) r)) := by
      rw [List.map_map]
      apply map_eq_of_forall_mem
      intro r _
      show (exportRow d r).getD j "" = _
      rw [exportRow]
      exact getD_map_of_lt (fun c => exportField (cellOfCol c r)) d.cols j hj "" emptyCol
    rw [hname, hfs]
    exact buildCol_export_eq _ (hwf.2.2 _ (getD_mem_of_lt hj emptyCol))
  have h1 : (load_table (headerFields d)
      ((List.range d.nrows).map (exportRow d))).nrows = d.nrows := by
    rw [load_table_nrows, List.length_map, List.length_range]
  calc load_table (headerFields d) ((List.range d.nrows).map (exportRow d))
      = (⟨(load_table (headerFields d) ((List.range d.nrows).map (exportRow d))).nrows,
          (load_table (headerFields d) ((List.range d.nrows).map (exportRow d))).cols⟩
        : Dataset) := rfl
    _ = ⟨d.nrows, d.cols⟩ := by rw [h1, h2]
    _ = d := rfl

/-! ## Claim theorems -/

def fileA : UploadedFile := ⟨"a.csv", "x\n1"⟩

def fileB : UploadedFile := ⟨"b.csv", "x\n2"⟩

def fileBad : UploadedFile := ⟨"bad.csv", "a,b\n1,2\n1,2,3"⟩

/-- Claim C1.  The claim says the analysis counter and the history file are
updated once per successful dataset load and never on chart-only or
export-only interactions.  The code violates this: the script reruns in full
on every interaction and lines 111-121 run whenever a file sits in the
uploader, so a single upload followed by one chart-only interaction leaves
`analysis_count = 2` and two history records — the claim predicts 1 and one
record.  This theorem evaluates the embedded code at that failing input. -/
theorem claim1_chart_only_interaction_also_increments :
    (runEvents initState [(Event.uploadFile fileA, "2024-01-01 10:00"),
      (Event.chartOnly, "2024-01-01 10:05")]).analysis_count = 2 ∧
    histLen (runEvents initState [(Event.uploadFile fileA, "2024-01-01 10:00"),
      (Event.chartOnly, "2024-01-01 10:05")]) = 2 := by
  constructor <;> rfl

/-- Claim C2.  The claim says a newly uploaded distinct file invalidates the
memoized dataset (keyed by source identity) and is reparsed.  The code
violates this: `load_data` takes no arguments, so the `st.cache_data` key is
the same on every run and the closed-over `uploaded_file` is not part of it;
after uploading `a.csv` and then the distinct `b.csv`, the dataframe the
script uses is still the one parsed from `a.csv`. -/
theorem claim2_new_upload_does_not_invalidate_cache :
    (runEvents initState [(Event.uploadFile fileA, "t1"),
      (Event.uploadFile fileB, "t2")]).lastDf = load_csv fileA.content ∧
    load_csv fileA.content ≠ load_csv fileB.content := by
  constructor
  · rfl
  · decide

/-- Claim C3.  The claim says every upload of invalid bytes fails with a
ParseError and changes nothing.  The bytes of `fileBad` are genuinely
invalid for `pd.read_csv`: the expected field count is fixed at 2 by the
header and the first data row, and the next row has 3 fields ("Expected 2
fields, saw 3" — not the uniformly-wider implicit-index case, which would
parse).  On a cold cache the code behaves as claimed: the ParseError at
line 108 aborts the run before lines 111-121, leaving the counter and the
history untouched.  But after any successful load the constant-key cache
makes `load_data()` return the memoized dataframe without touching the new
bytes: uploading the same malformed file then raises no error, increments
the counter and appends a history record.  This theorem evaluates the
embedded code at both inputs. -/
theorem claim3_malformed_upload_after_success_not_atomic :
    load_csv fileBad.content = none ∧
    (step initState (Event.uploadFile fileBad) "t0").2 = some PyErr.parseError ∧
    (step initState (Event.uploadFile fileBad) "t0").1.analysis_count = 0 ∧
    histLen ((step initState (Event.uploadFile fileBad) "t0").1) = 0 ∧
    (step (runEvents initState [(Event.uploadFile fileA, "t1")])
      (Event.uploadFile fileBad) "t2").2 = none ∧
    (step (runEvents initState [(Event.uploadFile fileA, "t1")])
      (Event.uploadFile fileBad) "t2").1.analysis_count = 2 ∧
    histLen ((step (runEvents initState [(Event.uploadFile fileA, "t1")])
      (Event.uploadFile fileBad) "t2").1) = 2 := by
  exact ⟨rfl, rfl, rfl, rfl, rfl, rfl, rfl⟩

/-- Claim C4.  For every history file state that deserializes to a record
sequence (an absent file reading as the empty sequence), `save_user_history`
raises nothing and rewrites the file so that it deserializes to exactly the
old sequence followed by the new record: order preserved, prior records
untouched. -/
theorem claim4_history_append_preserves_prefix (file : Option JDoc) (info : Json)
    (xs : List Json) (h : readLog file = some xs) :
    (save_user_history file info).1 = none ∧
    readLog (save_user_history file info).2 = some (xs ++ [info]) := by
  rcases file with _ | doc
  · rw [readLog] at h
    obtain rfl := Option.some.inj h
    exact ⟨rfl, rfl⟩
  · rcases doc with j | raw
    · rcases j with _ | b | n | s | ys | fs
      · exact absurd h (by simp [readLog])
      · exact absurd h (by simp [readLog])
      · exact absurd h (by simp [readLog])
      · exact absurd h (by simp [readLog])
      · rw [readLog] at h
        obtain rfl := Option.some.inj h
        exact ⟨rfl, rfl⟩
      · exact absurd h (by simp [readLog])
    · exact absurd h (by simp [readLog])

theorem claim4_history_append_preserves_prefix_witness :
    (save_user_history (some (JDoc.valid (Json.arr [Json.num 7]))) (Json.num 8)).1 = none ∧
    readLog (save_user_history (some (JDoc.valid (Json.arr [Json.num 7]))) (Json.num 8)).2
      = some ([Json.num 7] ++ [Json.num 8]) :=
  claim4_history_append_preserves_prefix (some (JDoc.valid (Json.arr [Json.num 7])))
    (Json.num 8) [Json.num 7] rfl

def dsC5 : Dataset :=
  ⟨3, [⟨"a", ColData.numeric [some 1, none, some 5]⟩,
       ⟨"b", ColData.numeric [some 2, some 4, some 6]⟩]⟩

/-- Claim C5.  The missing-value metric of the script (`isna().sum().sum()`)
equals the sum over every column and row of the cell-is-missing indicator,
for every dataset; and on the 3-row CSV of the scenario the loader yields
row count 3, column count 2, one missing cell, and a numeric column `a` with
2 non-missing values and mean 3. -/
theorem claim5_missing_count_and_scenario :
    (∀ d : Dataset, missingValues d = missingIndicatorSum d) ∧
    load_csv "a,b\n1,2\n,4\n5,6" = some dsC5 ∧
    dsC5.nrows = 3 ∧
    dsC5.cols.length = 2 ∧
    missingValues dsC5 = 1 ∧
    numericCells dsC5 "a" = some [some 1, none, some 5] ∧
    describeCount [some 1, none, some 5] = 2 ∧
    describeMean [some 1, none, some 5] = PFloat.val 3 := by
  refine ⟨?_, by decide, by decide, by decide, by decide, by decide, by decide, ?_⟩
  · intro d
    rw [missingValues, missingIndicatorSum]
    exact congrArg List.sum (map_eq_of_forall _ _ d.cols colMissing_eq_indicator)
  · have h1 : nonMissing [some 1, none, some 5] = [1, 5] := rfl
    rw [describeMean, h1]
    norm_num [List.sum_cons, List.sum_nil]

def dsC6 : Dataset :=
  ⟨3, [⟨"a", ColData.numeric [some 1, some 2, some 3]⟩,
       ⟨"b", ColData.numeric [none, none, none]⟩]⟩

def dsC6v : Dataset :=
  ⟨3, [⟨"a", ColData.numeric [some 1, some 2, some 3]⟩,
       ⟨"b", ColData.numeric [some 5, some 5, some 5]⟩]⟩

/-- Claim C6, counterexample.  The claim says a numeric column with zero
non-missing values gets its statistics reported as a non-NaN "not available"
marker and a zero-variance column gets its correlations reported as
undefined rather than NaN.  The code reports the pandas NaN itself in both
places: on the loaded dataset below, the describe mean of column `b` is NaN,
and the correlation of the constant column `b` with column `a` is NaN. -/
theorem claim6_counterexample :
    load_csv "a,b\n1,\n2,\n3," = some dsC6 ∧
    numericCells dsC6 "b" = some [none, none, none] ∧
    describeMean [none, none, none] = PFloat.nan ∧
    describeMin [none, none, none] = PFloat.nan ∧
    load_csv "a,b\n1,5\n2,5\n3,5" = some dsC6v ∧
    numericCells dsC6v "b" = some [some 5, some 5, some 5] ∧
    corrPair [some 5, some 5, some 5] [some 1, some 2, some 3] = CorrValue.nan := by
  refine ⟨by decide, by decide, rfl, rfl, by decide, by decide, ?_⟩
  exact corrPair_const_left_nan _ _ 5 (by decide)

/-- Claim C6, amended.  What the code does: a numeric column with zero
non-missing values yields NaN descriptive statistics (count 0, NaN mean, min
and max), and a numeric column whose non-missing values are all equal (zero
variance) yields a NaN correlation with every column — NaN is propagated to
the renderer, not a distinguished "not available" or "undefined" marker. -/
theorem claim6_nan_is_propagated :
    (∀ cs : List (Option Rat), nonMissing cs = [] →
      describeCount cs = 0 ∧ describeMean cs = PFloat.nan ∧
      describeMin cs = PFloat.nan ∧ describeMax cs = PFloat.nan) ∧
    (∀ (xs ys : List (Option Rat)) (c : Rat), (∀ v ∈ nonMissing xs, v = c) →
      corrPair xs ys = CorrValue.nan) :=
  ⟨fun _ h => describe_empty_nan h, corrPair_const_left_nan⟩

theorem claim6_nan_is_propagated_witness :
    describeMean ([none] : List (Option Rat)) = PFloat.nan ∧
    corrPair [some 5, some 5] [some 1, some 2] = CorrValue.nan :=
  ⟨(claim6_nan_is_propagated.1 [none] (by decide)).2.1,
    claim6_nan_is_propagated.2 [some 5, some 5] [some 1, some 2] 5 (by decide)⟩

theorem mem_colNames_of_mem_numericColNames {d : Dataset} {s : String}
    (h : s ∈ numericColNames d) : s ∈ colNames d := by
  rw [numericColNames, List.mem_map] at h
  obtain ⟨c, hc, rfl⟩ := h
  rw [colNames, List.mem_map]
  exact ⟨c, (List.mem_filter.mp hc).1, rfl⟩

theorem buildFig_ok {d : Dataset} {x y : String} (hx : x ∈ colNames d)
    (hy : y ∈ colNames d) (k : ChartKind) :
    buildFig d k x y = Except.ok ⟨k, x, y, chartTitle k x y⟩ := by
  cases k <;>
    simp [buildFig, pxScatter, pxLine, pxBar, pxBox, chartTitle, hx, hy]

theorem buildFig_err {d : Dataset} {x y : String} (h : x ∉ colNames d ∨ y ∉ colNames d)
    (k : ChartKind) : buildFig d k x y = Except.error PyErr.valueError := by
  have hcond : ¬ (((colNames d).contains x && (colNames d).contains y) = true) := by
    simp only [Bool.and_eq_true]
    intro hc
    rcases h with h | h
    · exact h (by simpa using hc.1)
    · exact h (by simpa using hc.2)
  cases k <;>
  · simp only [buildFig, pxScatter, pxLine, pxBar, pxBox]
    rw [if_neg hcond]

def dsC7 : Dataset :=
  ⟨2, [⟨"Date", ColData.numeric [some 1, some 2]⟩,
       ⟨"Region", ColData.object [some "North", some "South"]⟩]⟩

/-- Claim C7, counterexample.  The claim says chart building fails with an
InvalidSelectionError, producing no chart spec, whenever the chosen y column
is not a numeric column of the dataset.  The chart branch of the code (lines
157-164) never checks dtypes: handed the present but non-numeric column
`Region` of the loaded dataset below, the px call returns a figure spec and
raises nothing. -/
theorem claim7_counterexample :
    load_csv "Date,Region\n1,North\n2,South" = some dsC7 ∧
    "Region" ∉ numericColNames dsC7 ∧
    "Region" ∈ colNames dsC7 ∧
    buildFig dsC7 ChartKind.scatter "Date" "Region"
      = Except.ok ⟨ChartKind.scatter, "Date", "Region", "Region vs Date"⟩ := by
  refine ⟨by decide, by decide, by decide, rfl⟩

/-- Claim C7, amended.  What the code does: the px call validates only that
the handed names are columns of the dataframe — an absent name raises the
plotting library's ValueError, no InvalidSelectionError exists anywhere —
and it never checks that the y column is numeric: for every chart kind and
every pair of names present in the dataset's columns, including a
categorical y, a figure spec with the documented title is produced.
Non-numeric y choices are excluded upstream only by the y select box
offering numeric columns. -/
theorem claim7_no_numeric_y_validation :
    (∀ (d : Dataset) (k : ChartKind) (x y : String), x ∈ colNames d → y ∈ colNames d →
      buildFig d k x y = Except.ok ⟨k, x, y, chartTitle k x y⟩) ∧
    (∀ (d : Dataset) (k : ChartKind) (x y : String), x ∉ colNames d ∨ y ∉ colNames d →
      buildFig d k x y = Except.error PyErr.valueError) :=
  ⟨fun _ k _ _ hx hy => buildFig_ok hx hy k, fun _ k _ _ h => buildFig_err h k⟩

theorem claim7_no_numeric_y_validation_witness :
    buildFig dsC7 ChartKind.bar "Date" "Region"
      = Except.ok ⟨ChartKind.bar, "Date", "Region", "Region by Date"⟩ ∧
    buildFig dsC7 ChartKind.bar "ghost" "absent" = Except.error PyErr.valueError :=
  ⟨claim7_no_numeric_y_validation.1 dsC7 ChartKind.bar "Date" "Region"
      (by decide) (by decide),
    claim7_no_numeric_y_validation.2 dsC7 ChartKind.bar "ghost" "absent"
      (Or.inl (by decide))⟩

def dsC9 : Dataset :=
  ⟨2, [⟨"Date", ColData.object [some "d1", some "d2"]⟩,
       ⟨"Sales", ColData.numeric [some 100, some 120]⟩]⟩

def dsC8 : Dataset := ⟨3, [⟨"a", ColData.numeric [some 1, none, some 2]⟩]⟩

def dsC8r : Dataset := ⟨2, [⟨"a", ColData.numeric [some 1, some 2]⟩]⟩

/-- Claim C8, counterexample.  The round trip does not hold for every loaded
dataset: a single-column dataset with a missing cell exports that row as a
blank line (`to_csv` writes an empty field), and `read_csv` skips blank
lines on reload, so the row count drops from 3 to 2. -/
theorem claim8_counterexample :
    load_csv "a\n1\nNaN\n2" = some dsC8 ∧
    dsC8.nrows = 3 ∧
    to_csv dsC8 = "a\n1\n\n2" ∧
    load_csv (to_csv dsC8) = some dsC8r ∧
    dsC8r.nrows = 2 := by
  refine ⟨by decide, rfl, by decide, by decide, rfl⟩

/-- Claim C8, amended.  For every loaded dataset in which no row serializes
to a blank line — which holds as soon as the dataset has at least two
columns (every row line then contains a comma), and otherwise requires every
row to keep a non-missing cell — exporting to CSV and reloading through the
loader yields a dataset with identical row count, identical column count,
and equal cell values at every non-missing cell of the original (indeed the
reload reproduces the dataset exactly). -/
theorem claim8_roundtrip_guarded (content : String) (d : Dataset)
    (h : load_csv content = some d)
    (hguard : 2 ≤ d.cols.length ∨
      ∀ j < d.nrows, ∃ c ∈ d.cols, (cellOfCol c j).isSome = true) :
    ∃ d2, load_csv (to_csv d) = some d2 ∧ d2.nrows = d.nrows ∧
      d2.cols.length = d.cols.length ∧
      ∀ i j v, cellVal d i j = some v → cellVal d2 i j = some v :=
  ⟨d, load_csv_to_csv d (load_csv_wf h) hguard, rfl, rfl, fun _ _ _ hv => hv⟩

def dsC8w : Dataset :=
  ⟨2, [⟨"a", ColData.numeric [some 1, none]⟩, ⟨"b", ColData.object [some "x", some "y"]⟩]⟩

theorem claim8_roundtrip_guarded_witness :
    ∃ d2, load_csv (to_csv dsC8w) = some d2 ∧ d2.nrows = dsC8w.nrows ∧
      d2.cols.length = dsC8w.cols.length ∧
      ∀ i j v, cellVal dsC8w i j = some v → cellVal d2 i j = some v :=
  claim8_roundtrip_guarded "a,b\n1,x\n,y" dsC8w (by decide) (Or.inl (by decide))

/-- Claim C9.  Every chart the program can actually build has its y column
drawn from the numeric columns: the y select box offers only
`select_dtypes(['float64','int64']).columns`, so whatever option index the
user picks, the px call succeeds (both names are genuine columns, so the
plotting library's validation passes) and the resulting figure's y column
names a numeric column of the dataset, for every chart kind. -/
theorem claim9_built_chart_y_is_numeric (d : Dataset) (xi yi : Nat) (k : ChartKind)
    (r : Except PyErr ChartSpec) (h : chartSection d xi yi k = some r) :
    ∃ spec, r = Except.ok spec ∧ spec.y ∈ numericColNames d ∧
      ∃ c ∈ d.cols, c.name = spec.y ∧ isNumericCol c = true := by
  unfold chartSection at h
  rcases hx : (colNames d).get? xi with _ | x <;> rw [hx] at h
  · exact absurd h (by simp)
  · rcases hy : (numericColNames d).get? yi with _ | y <;> rw [hy] at h
    · exact absurd h (by simp)
    · dsimp only at h
      have hr := Option.some.inj h
      have hymem : y ∈ numericColNames d := List.get?_mem hy
      have hxmem : x ∈ colNames d := List.get?_mem hx
      have hycol : y ∈ colNames d := mem_colNames_of_mem_numericColNames hymem
      refine ⟨⟨k, x, y, chartTitle k x y⟩, ?_, hymem, ?_⟩
      · rw [← hr]
        exact buildFig_ok hxmem hycol k
      · have h2 := hymem
        rw [numericColNames, List.mem_map] at h2
        obtain ⟨c, hc, hcn⟩ := h2
        rw [List.mem_filter] at hc
        exact ⟨c, hc.1, hcn, hc.2⟩

theorem claim9_built_chart_y_is_numeric_witness :
    ∃ spec, (Except.ok (⟨ChartKind.scatter, "Date", "Sales", "Sales vs Date"⟩ : ChartSpec)
        : Except PyErr ChartSpec) = Except.ok spec ∧
      spec.y ∈ numericColNames dsC9 ∧
      ∃ c ∈ dsC9.cols, c.name = spec.y ∧ isNumericCol c = true :=
  claim9_built_chart_y_is_numeric dsC9 0 0 ChartKind.scatter
    (Except.ok ⟨ChartKind.scatter, "Date", "Sales", "Sales vs Date"⟩) rfl

/-- Claim C10.  When the history file exists but its contents are not
well-formed JSON, `json.load` raises before the file is ever opened for
writing, so `save_user_history` surfaces the error and the file contents
after the call are exactly the contents before it. -/
theorem claim10_malformed_history_error_before_write (raw : String) (info : Json) :
    save_user_history (some (JDoc.invalid raw)) info
      = (some PyErr.jsonDecodeError, some (JDoc.invalid raw)) := rfl

end Dashboard
